import Mathlib

/-!
Verification of the organizefs pattern-indexed tree store.

This file shallowly embeds the core of the repository:
  * `src/common/src/normalize.rs` — path normalization (`Normalize for PathBuf`),
  * `src/organizefs/src/common/file.rs` — placeholder expansion (`expand`),
  * `src/organizefs/src/organizefs.rs` — `OrganizeFSEntry::local_path`, `OrganizeFS::unlink`,
    `OrganizeFS::readdir`,
  * `src/store/src/lib.rs` — `TreeStorage` (`new`, `add_entry`, `remove`, `find`, `len`,
    `set_pattern`, `upsert`, `find_child`, `add_entry_inner`).

Paths: a Rust `PathBuf` is a string.  We represent the string `s` by the structure
`Fpath`: `absolute` records whether `s` starts with `'/'`, and `segs` is the list of
`'/'`-separated pieces of the remainder (`segs` is never empty; the empty string is
`⟨false, [""]⟩`, the string `"/"` is `⟨true, [""]⟩`).  This encoding is a bijection
with strings, and `Fpath.components` mirrors Rust's `Path::components()` parser:
empty segments are dropped, `"."` is dropped except as the leading component of a
relative path, `".."` becomes `ParentDir`.

Hash maps (`HashMap<usize, Node>`, `HashMap<OsString, usize>`) are represented by
association lists whose operations have map semantics (update and erase act on the
key, `lookup` retrieves it); `HashMap::len` is the list length, which agrees with the
key count on every state the program constructs (keys are unique by construction).
Iteration order of `HashMap::values()` (used by `set_pattern`) is not specified in
Rust; the model iterates in list order, one of the admissible orders.

Panics (`unwrap`, `unreachable!`, explicit `panic!`) are modelled by `Option`:
`none` is an aborted computation.
-/

/-- One component of a Rust path, as produced by `Path::components()`:
`RootDir`, `CurDir`, `ParentDir` or `Normal`. -/
inductive Comp where
  | root : Comp
  | cur : Comp
  | parent : Comp
  | normal : String → Comp
deriving DecidableEq, Repr

/-- A Rust `PathBuf` (a string), encoded as: does it start with `'/'`, plus the
`'/'`-separated segments of the rest.  `segs` is never empty. -/
structure Fpath where
  absolute : Bool
  segs : List String
deriving DecidableEq, Repr

/-- Split a character list at every `'/'`; always returns at least one piece. -/
def splitSlash : List Char → List (List Char)
  | [] => [[]]
  | c :: rest =>
    if c = '/' then [] :: splitSlash rest
    else
      match splitSlash rest with
      | p :: ps => (c :: p) :: ps
      | [] => [[c]]

/-- Decode a string into its `Fpath` representation. -/
def Fpath.ofString (s : String) : Fpath :=
  match s.data with
  | '/' :: rest => ⟨true, (splitSlash rest).map fun l => String.mk l⟩
  | d => ⟨false, (splitSlash d).map fun l => String.mk l⟩

/-- Components of the segment list after the first component of a relative path
(and of the whole segment list of an absolute path): `""` and `"."` are dropped,
`".."` is `ParentDir`. -/
def segComps : List String → List Comp
  | [] => []
  | s :: rest =>
    if s = "" ∨ s = "." then segComps rest
    else (if s = ".." then Comp.parent else Comp.normal s) :: segComps rest

/-- Components of a relative path's segment list: a leading `"."` is kept
(as `CurDir`), mirroring Rust's `Path::components()`. -/
def relComps : List String → List Comp
  | [] => []
  | s :: rest =>
    if s = "" then relComps rest
    else if s = "." then Comp.cur :: segComps rest
    else if s = ".." then Comp.parent :: segComps rest
    else Comp.normal s :: segComps rest

/-- `Path::components()` for the encoded path. -/
def Fpath.components (p : Fpath) : List Comp :=
  if p.absolute then Comp.root :: segComps p.segs else relComps p.segs

/-- The text of a component (`Component::as_os_str`). -/
def compText : Comp → String
  | Comp.root => "/"
  | Comp.cur => "."
  | Comp.parent => ".."
  | Comp.normal s => s

/-- Reassemble a component list into a path, mirroring the string-building loop at
the end of `normalize` (separators between all components except after `RootDir`).
The loop below only ever produces an optional `RootDir` followed by `Normal`s, and
on such lists this is exactly the Rust string. -/
def printComps : List Comp → Fpath
  | Comp.root :: rest => ⟨true, if rest.isEmpty then [""] else rest.map compText⟩
  | comps => ⟨false, if comps.isEmpty then [""] else comps.map compText⟩

/-- The component-rewriting loop of `normalize` (from `normalize.rs`): `RootDir`
clears the accumulator, `CurDir` is dropped, `ParentDir` pops a trailing `Normal`
if one is present, `Normal` is pushed. -/
def normLoop (acc : List Comp) : List Comp → List Comp
  | [] => acc
  | Comp.root :: rest => normLoop [Comp.root] rest
  | Comp.cur :: rest => normLoop acc rest
  | Comp.parent :: rest =>
    normLoop
      (match acc.getLast? with
        | some (Comp.normal _) => acc.dropLast
        | _ => acc) rest
  | Comp.normal s :: rest => normLoop (acc ++ [Comp.normal s]) rest

/-- `Normalize::normalize` for `PathBuf` (`src/common/src/normalize.rs`). -/
def Fpath.normalize (p : Fpath) : Fpath :=
  printComps (normLoop [] p.components)

/-- A segment string that `Path::components()` parses as a single `Normal`. -/
def ValidName (s : String) : Prop := s ≠ "" ∧ s ≠ "." ∧ s ≠ ".."

instance (s : String) : Decidable (ValidName s) := by
  unfold ValidName; infer_instance

/-- A component list of `Normal`s carrying valid names. -/
def AllNormal (l : List Comp) : Prop := ∀ c ∈ l, ∃ s, c = Comp.normal s ∧ ValidName s

/-- An optional leading `RootDir` followed by valid `Normal`s: the shape of every
output of the normalize loop. -/
def RootNormals (l : List Comp) : Prop :=
  AllNormal l ∨ ∃ t, l = Comp.root :: t ∧ AllNormal t

/-- Names appearing as `Normal` in `l` are valid. -/
def ValidComps (l : List Comp) : Prop := ∀ s, Comp.normal s ∈ l → ValidName s
/-- Does `pat` occur at the head of `s`? (`str::starts_with` for char lists). -/
def isLeadB : List Char → List Char → Bool
  | [], _ => true
  | _ :: _, [] => false
  | p :: ps, c :: cs => p = c && isLeadB ps cs

/-- Replace every non-overlapping occurrence of `pat` in `s` by `rep`, scanning left
to right (`str::replace`).  `fuel` bounds the recursion and is called with `s.length`;
when `pat` is non-empty (every call site uses `"{meta}"`, `"{size}"`, `"{mdate}"`)
the fuel is never exhausted and this is exactly the Rust function. -/
def replaceGo (pat rep : List Char) : Nat → List Char → List Char
  | _, [] => []
  | 0, s => s
  | fuel + 1, c :: cs =>
    if isLeadB pat (c :: cs) then rep ++ replaceGo pat rep fuel ((c :: cs).drop pat.length)
    else c :: replaceGo pat rep fuel cs

/-- `str::replace` on strings. -/
def strReplace (s pat rep : String) : String :=
  String.mk (replaceGo pat.data rep.data s.data.length s.data)

/-- The entry type of the filesystem (`OrganizeFSEntry` in
`src/organizefs/src/organizefs.rs`): a display name, a host path, and the three
attribute strings.  The derived `FsFile` indexing maps `"size" ↦ size`,
`"meta" ↦ mime`, `"mdate" ↦ modified_date`. -/
structure OrganizeFSEntry where
  name : String
  host_path : Fpath
  size : String
  mime : String
  modified_date : String
deriving DecidableEq, Repr

/-- `expand` from `src/organizefs/src/common/file.rs`: stringify the component and
substitute the three placeholders in sequence. -/
def expand (c : Comp) (e : OrganizeFSEntry) : String :=
  strReplace (strReplace (strReplace (compText c) "{meta}" e.mime) "{size}" e.size)
    "{mdate}" e.modified_date

/-- `PathBuf::push`: an absolute argument replaces the path; otherwise the argument's
segments are appended, merging with a trailing separator (a trailing empty segment)
when one is present. -/
def Fpath.push (p : Fpath) (s : String) : Fpath :=
  let q := Fpath.ofString s
  if q.absolute then q
  else if p.absolute = false ∧ p.segs = [""] then ⟨false, q.segs⟩
  else if p.segs.getLast? = some "" then ⟨p.absolute, p.segs.dropLast ++ q.segs⟩
  else ⟨p.absolute, p.segs ++ q.segs⟩

/-- `OrganizeFSEntry::local_path`: fold the pattern's components through `expand`
into a fresh `PathBuf`, then push the display name. -/
def OrganizeFSEntry.local_path (e : OrganizeFSEntry) (pattern : Fpath) : Fpath :=
  (pattern.components.foldl (fun (acc : Fpath) c => acc.push (expand c e)) ⟨false, [""]⟩).push
    e.name

/-- A tree node (`enum Node<E>` in `src/store/src/lib.rs`): a `Branch` holds the
name → identifier map of its children, a `Leaf` holds one entry. -/
inductive Node where
  | branch : List (String × Nat) → Node
  | leaf : OrganizeFSEntry → Node
deriving DecidableEq, Repr

/-- The node arena `HashMap<usize, Node<E>>` as an association list. -/
abbrev NodeMap := List (Nat × Node)

/-- `HashMap::get`. -/
def lookup (k : Nat) : NodeMap → Option Node
  | [] => none
  | (k', v) :: rest => if k' = k then some v else lookup k rest

/-- `HashMap::remove` on the arena: the key disappears. -/
def eraseKey (k : Nat) : NodeMap → NodeMap
  | [] => []
  | (k', v) :: rest => if k' = k then eraseKey k rest else (k', v) :: eraseKey k rest

/-- Overwrite the value stored at a present key (the effect of `get_mut` + in-place
mutation, and of `insert` on a present key). -/
def mapSet (k : Nat) (v : Node) : NodeMap → NodeMap
  | [] => []
  | (k', v') :: rest =>
    if k' = k then (k, v) :: mapSet k v rest else (k', v') :: mapSet k v rest

/-- `HashMap::insert` on the arena: overwrite if present, append if absent. -/
def mapInsert (k : Nat) (v : Node) (m : NodeMap) : NodeMap :=
  if (lookup k m).isSome then mapSet k v m else m ++ [(k, v)]

/-- `HashMap::get` on a children map. -/
def childLookup (name : String) : List (String × Nat) → Option Nat
  | [] => none
  | (n, i) :: rest => if n = name then some i else childLookup name rest

/-- Overwrite the identifier bound to a present name. -/
def childSet (name : String) (i : Nat) : List (String × Nat) → List (String × Nat)
  | [] => []
  | (n, j) :: rest =>
    if n = name then (name, i) :: childSet name i rest else (n, j) :: childSet name i rest

/-- `HashMap::insert` on a children map: overwrite if present, append if absent. -/
def childInsert (name : String) (i : Nat) (ch : List (String × Nat)) :
    List (String × Nat) :=
  if (childLookup name ch).isSome then childSet name i ch else ch ++ [(name, i)]

/-- `HashMap::remove` on a children map. -/
def childErase (name : String) : List (String × Nat) → List (String × Nat)
  | [] => []
  | (n, i) :: rest =>
    if n = name then childErase name rest else (n, i) :: childErase name rest

namespace TreeStorage

/-- `TreeStorage::find_child`: look `name` up among the children of `parent_id`,
returning `None` when the parent is absent or not a `Branch`. -/
def find_child (nodes : NodeMap) (parent_id : Nat) (name : String) : Option Nat :=
  match lookup parent_id nodes with
  | some (Node.branch children) => childLookup name children
  | _ => none

/-- `TreeStorage::upsert`: if `name` is already a child of `parent_id`, return the
existing identifier and leave the arena alone; otherwise bind `name` to the fresh
identifier `nodes.len()` and store `node` there.  A `Leaf` or missing parent is a
panic (`none`). -/
def upsert (nodes : NodeMap) (parent_id : Nat) (name : String) (node : Node) :
    Option (Nat × NodeMap) :=
  match lookup parent_id nodes with
  | some (Node.branch children) =>
    match childLookup name children with
    | none =>
      some (nodes.length,
        mapInsert nodes.length node
          (mapSet parent_id (Node.branch (childInsert name nodes.length children)) nodes))
    | some i => some (i, nodes)
  | some (Node.leaf _) => none
  | none => none

end TreeStorage

/-- The component walk shared by `find` and the parent walk of `remove`:
`RootDir` resets to identifier `0`, `Normal` descends through `find_child`
(`some none` = a segment was unmatched, so the lookup misses), and `CurDir` /
`ParentDir` hit `unreachable!()` (`none` = panic). -/
def walkE (nodes : NodeMap) (cur : Nat) : List Comp → Option (Option Nat)
  | [] => some (some cur)
  | Comp.root :: rest => walkE nodes 0 rest
  | Comp.normal s :: rest =>
    match TreeStorage.find_child nodes cur s with
    | some c => walkE nodes c rest
    | none => some none
  | Comp.cur :: _ => none
  | Comp.parent :: _ => none

/-- The walk of `add_entry_inner` over the parent components: like `walkE` but each
`Normal` segment upserts a `Branch`. -/
def insertWalk (nodes : NodeMap) (cur : Nat) : List Comp → Option (Nat × NodeMap)
  | [] => some (cur, nodes)
  | Comp.root :: rest => insertWalk nodes 0 rest
  | Comp.normal s :: rest =>
    match TreeStorage.upsert nodes cur s (Node.branch []) with
    | some (c, nodes') => insertWalk nodes' c rest
    | none => none
  | Comp.cur :: _ => none
  | Comp.parent :: _ => none

/-- Split a list into its initial part and last element. -/
def splitLast : List Comp → Option (List Comp × Comp)
  | [] => none
  | [c] => some ([], c)
  | c :: rest =>
    match splitLast rest with
    | some (init, last) => some (c :: init, last)
    | none => none

namespace TreeStorage

/-- `TreeStorage::add_entry_inner`: compute the entry's local path, walk
`file.parent().unwrap().components()` upserting branches, then upsert a leaf under
`file.file_name().unwrap()`.  `none` collects every panic: an empty local path
(`parent()` is `None`), a non-`Normal` final component (`file_name()` is `None`),
a `CurDir`/`ParentDir` during the walk (`unreachable!()`), and the `upsert` panics. -/
def add_entry_inner (nodes : NodeMap) (pattern : Fpath) (entry : OrganizeFSEntry) :
    Option NodeMap :=
  match splitLast (entry.local_path pattern).components with
  | some (init, Comp.normal name) =>
    match insertWalk nodes 0 init with
    | some (parent_id, nodes₁) =>
      match upsert nodes₁ parent_id name (Node.leaf entry) with
      | some (_, nodes₂) => some nodes₂
      | none => none
    | none => none
  | _ => none

end TreeStorage

/-- The store (`TreeStorage<E>`): the normalized pattern and the node arena. -/
structure Store where
  pattern : Fpath
  nodes : NodeMap
deriving DecidableEq, Repr

namespace TreeStorage

/-- `TreeStorage::new`: normalize the pattern and start from a lone root branch. -/
def new (pattern : Fpath) : Store :=
  ⟨pattern.normalize, [(0, Node.branch [])]⟩

/-- `TreeStorage::add_entry` (panic = `none`). -/
def add_entry (s : Store) (entry : OrganizeFSEntry) : Option Store :=
  (add_entry_inner s.nodes s.pattern entry).map fun nodes => ⟨s.pattern, nodes⟩

/-- `TreeStorage::find`, reduced to the identifier it resolves: `none` = panic
(`unreachable!()` on a `CurDir`/`ParentDir` component), `some none` = `None`,
`some (some i)` = `Some(StorageEntry { node_id: i, .. })`. -/
def find (s : Store) (p : Fpath) : Option (Option Nat) :=
  walkE s.nodes 0 p.components

/-- `StorageEntry::is_file`. -/
def is_file (nodes : NodeMap) (i : Nat) : Bool :=
  match lookup i nodes with
  | some (Node.leaf _) => true
  | _ => false

/-- `StorageEntry::is_directory`. -/
def is_directory (nodes : NodeMap) (i : Nat) : Bool :=
  match lookup i nodes with
  | some (Node.branch _) => true
  | _ => false

/-- `StorageEntry::host_path` (`unwrap` on a non-leaf = `none`). -/
def host_path (nodes : NodeMap) (i : Nat) : Option Fpath :=
  match lookup i nodes with
  | some (Node.leaf e) => some e.host_path
  | _ => none

/-- `TreeStorage::remove`: locate the parent of the final component, drop the
name → identifier binding from its children, and drop the node from the arena,
reporting whether a node was actually deleted.  `none` = panic (a
`CurDir`/`ParentDir` met during the parent walk). -/
def remove (s : Store) (p : Fpath) : Option (Bool × Store) :=
  match splitLast p.components with
  | none => some (false, s)
  | some (init, last) =>
    match last with
    | Comp.root => some (false, s)
    | Comp.normal name =>
      match walkE s.nodes 0 init with
      | none => none
      | some none => some (false, s)
      | some (some parent_id) =>
        match lookup parent_id s.nodes with
        | some (Node.branch children) =>
          match childLookup name children with
          | some cid =>
            let nodes₁ := mapSet parent_id (Node.branch (childErase name children)) s.nodes
            some ((lookup cid nodes₁).isSome, ⟨s.pattern, eraseKey cid nodes₁⟩)
          | none => some (false, s)
        | _ => some (false, s)
    | _ =>
      match walkE s.nodes 0 init with
      | none => none
      | some _ => some (false, s)

/-- `TreeStorage::len`: the number of leaves. -/
def len (s : Store) : Nat :=
  (s.nodes.filter fun kv => match kv.2 with | Node.leaf _ => true | _ => false).length

/-- `TreeStorage::node_count`. -/
def node_count (s : Store) : Nat := s.nodes.length

/-- The leaf entries of the arena, in iteration order (`self.nodes.values()`). -/
def leafEntries (nodes : NodeMap) : List OrganizeFSEntry :=
  nodes.filterMap fun kv => match kv.2 with | Node.leaf e => some e | _ => none

/-- `TreeStorage::set_pattern`: normalize the new pattern, rebuild a fresh arena by
replaying `add_entry_inner` for every leaf entry, then swap pattern and arena in.
`none` = a panic during the rebuild. -/
def set_pattern (s : Store) (pattern : String) : Option Store :=
  match (leafEntries s.nodes).foldlM
      (fun nodes e => add_entry_inner nodes (Fpath.ofString pattern).normalize e)
      [(0, Node.branch [])] with
  | some new_nodes => some ⟨(Fpath.ofString pattern).normalize, new_nodes⟩
  | none => none

end TreeStorage

/-- The root-branch invariant of the store: identifier `0` is a `Branch`, and no
child binding ever points at identifier `0` (so the root can never be removed
or replaced). -/
def StoreInv (nodes : NodeMap) : Prop :=
  (∃ ch, lookup 0 nodes = some (Node.branch ch)) ∧
  ∀ k ch, lookup k nodes = some (Node.branch ch) → ∀ ni ∈ ch, 1 ≤ ni.2

/-- Store states reachable from `TreeStorage::new` through the mutating API
(`add_entry`, `remove`, `set_pattern`); `find` does not mutate. -/
inductive Reachable : Store → Prop where
  | new (p : Fpath) : Reachable (TreeStorage.new p)
  | add {s s' : Store} {e : OrganizeFSEntry} : Reachable s →
      TreeStorage.add_entry s e = some s' → Reachable s'
  | rem {s : Store} {p : Fpath} {b : Bool} {s' : Store} : Reachable s →
      TreeStorage.remove s p = some (b, s') → Reachable s'
  | set {s s' : Store} {q : String} : Reachable s →
      TreeStorage.set_pattern s q = some s' → Reachable s'

/-- Sample entry used by concrete checks: display name `"x"`. -/
def eW : OrganizeFSEntry := ⟨"x", ⟨true, ["h", "x"]⟩, "1KB", "text_plain", "2020-01-01"⟩

/-- A one-file store for the removal witness. -/
def sC5 : Store := ⟨⟨true, [""]⟩, [(0, Node.branch [("x", 1)]), (1, Node.leaf eW)]⟩

/-- The store `sC5` after `remove("/x")`. -/
def sC5' : Store := ⟨⟨true, [""]⟩, [(0, Node.branch [])]⟩

/-- Entry `"f"` with content type `"x"`, inserted first in the C9 counterexample. -/
def eD : OrganizeFSEntry := ⟨"f", ⟨true, ["h", "f"]⟩, "1KB", "x", "2020-01-01"⟩

/-- Entry named `"x"` with empty content type: its virtual path is `/x`, colliding
with the branch `/x` that `eD` created. -/
def eC9 : OrganizeFSEntry := ⟨"x", ⟨true, ["h2", "x"]⟩, "2KB", "", "2020-01-02"⟩

/-- The store after inserting `eD` under pattern `/{meta}`. -/
def sC9 : Store :=
  ⟨⟨true, ["{meta}"]⟩, [(0, Node.branch [("x", 1)]), (1, Node.branch [("f", 2)]),
    (2, Node.leaf eD)]⟩

/-- Entries `"a"`, `"b"`, `"c"` with distinct host paths, for the identifier-reuse
demonstration. -/
def ea : OrganizeFSEntry := ⟨"a", ⟨true, ["h", "a"]⟩, "1KB", "t", "2020-01-01"⟩

def eb : OrganizeFSEntry := ⟨"b", ⟨true, ["h", "b"]⟩, "1KB", "t", "2020-01-01"⟩

def ec : OrganizeFSEntry := ⟨"c", ⟨true, ["h", "c"]⟩, "1KB", "t", "2020-01-01"⟩

/-- `new "/"` after `add_entry ea`. -/
def sC4a : Store := ⟨⟨true, [""]⟩, [(0, Node.branch [("a", 1)]), (1, Node.leaf ea)]⟩

/-- … after `add_entry eb`. -/
def sC4b : Store :=
  ⟨⟨true, [""]⟩, [(0, Node.branch [("a", 1), ("b", 2)]), (1, Node.leaf ea),
    (2, Node.leaf eb)]⟩

/-- … after `remove "/a"`: identifier `2` is still live but `nodes.len() = 2`. -/
def sC4r : Store := ⟨⟨true, [""]⟩, [(0, Node.branch [("b", 2)]), (2, Node.leaf eb)]⟩

/-- … after `add_entry ec`: the new leaf was stored under the *already occupied*
identifier `2 = nodes.len()`, overwriting `eb`'s leaf and aliasing `"b"` and
`"c"` to the same node. -/
def sC4o : Store :=
  ⟨⟨true, [""]⟩, [(0, Node.branch [("b", 2), ("c", 2)]), (2, Node.leaf ec)]⟩

/-- `libc::ENOENT`. -/
def ENOENT : Int := 2

/-- The two node kinds `readdir` reports (`fuse_mt::FileType`). -/
inductive FileType where
  | directory : FileType
  | regularFile : FileType
deriving DecidableEq, Repr

namespace OrganizeFS

/-- `OrganizeFS::unlink`: push `name` onto `parent`, resolve in the store; a file
node delegates the host `unlink` (the Syscall Port, passed as `host`, returns the
`raw_os_error()` on failure); on host success the entry is removed from the store
(the removal's boolean is only logged); anything else is `ENOENT`.  `none` = panic
(a `..` or leading `.` component reaching the store walk). -/
def unlink (s : Store) (host : Fpath → Except (Option Int) Unit) (parent : Fpath)
    (name : String) : Option (Except Int Unit × Store) :=
  match TreeStorage.find s (parent.push name) with
  | none => none
  | some none => some (Except.error ENOENT, s)
  | some (some i) =>
    match lookup i s.nodes with
    | some (Node.leaf e) =>
      match host e.host_path with
      | Except.ok _ =>
        (TreeStorage.remove s (parent.push name)).map fun br => (Except.ok (), br.2)
      | Except.error eo => some (Except.error (eo.getD ENOENT), s)
    | _ => some (Except.error ENOENT, s)

/-- `OrganizeFS::readdir`: resolve `path` (`ENOENT` when unresolved), then list the
conventional `.`/`..` entries followed by the node's children, each classified by
node kind (children of a non-branch are the empty iterator; dangling identifiers
are skipped by the classification filter). -/
def readdir (s : Store) (p : Fpath) : Option (Except Int (List (String × FileType))) :=
  match TreeStorage.find s p with
  | none => none
  | some none => some (Except.error ENOENT)
  | some (some i) =>
    some (Except.ok ([(".", FileType.directory), ("..", FileType.directory)] ++
      (match lookup i s.nodes with
        | some (Node.branch ch) => ch
        | _ => []).filterMap fun (nc : String × Nat) =>
          match lookup nc.2 s.nodes with
          | some (Node.branch _) => some (nc.1, FileType.directory)
          | some (Node.leaf _) => some (nc.1, FileType.regularFile)
          | none => none))

end OrganizeFS

/-- A syscall port whose `unlink` always succeeds. -/
def hostOk : Fpath → Except (Option Int) Unit := fun _ => Except.ok ()

/-- A syscall port whose `unlink` fails with `EACCES` (13). -/
def hostFail : Fpath → Except (Option Int) Unit := fun _ => Except.error (some 13)

/-- Walk a list of plain child names from `cur` (the name-level view of `find`'s
walk on `Normal` components). -/
def wfindN (nodes : NodeMap) (cur : Nat) : List String → Option Nat
  | [] => some cur
  | n :: rest =>
    match TreeStorage.find_child nodes cur n with
    | some c => wfindN nodes c rest
    | none => none

/-- The name-level view of `add_entry_inner`'s branch-upserting walk. -/
def winsertN (nodes : NodeMap) (cur : Nat) : List String → Option (Nat × NodeMap)
  | [] => some (cur, nodes)
  | n :: rest =>
    match TreeStorage.upsert nodes cur n (Node.branch []) with
    | some (c, nodes') => winsertN nodes' c rest
    | none => none

/-- Extract the names of an all-`Normal` component list (`none` otherwise). -/
def toNamesNR : List Comp → Option (List String)
  | [] => some []
  | Comp.normal s :: rest => (toNamesNR rest).map (s :: ·)
  | _ => none

/-- Drop a leading `RootDir`. -/
def stripRoot : List Comp → List Comp
  | Comp.root :: rest => rest
  | comps => comps

/-- The name sequence of a path, when its components are a (possibly rooted) run
of `Normal`s — exactly the paths the store's walks fully traverse. -/
def pathNames (p : Fpath) : Option (List String) :=
  toNamesNR (stripRoot p.components)

/-- Is `p` a leading run of `q`? -/
def segPre : List String → List String → Bool
  | [], _ => true
  | _ :: _, [] => false
  | a :: as, b :: bs => a = b && segPre as bs

/-- The number of leaves in an arena (the body of `TreeStorage::len`). -/
def leafCount (nodes : NodeMap) : Nat :=
  (nodes.filter fun kv => match kv.2 with | Node.leaf _ => true | _ => false).length

/-- The arena's keys are exactly `0, …, len-1` in insertion order — true of every
store built without removals, and the regime in which `new_id = nodes.len()` is
actually fresh. -/
def compact (nodes : NodeMap) : Prop :=
  nodes.map Prod.fst = List.range nodes.length

instance (nodes : NodeMap) : Decidable (compact nodes) := by
  unfold compact
  infer_instance

/-- Monotone extension: every child edge and every leaf binding survives. -/
def grows (n n' : NodeMap) : Prop :=
  (∀ c m i, TreeStorage.find_child n c m = some i → TreeStorage.find_child n' c m = some i) ∧
  (∀ k e, lookup k n = some (Node.leaf e) → lookup k n' = some (Node.leaf e))

/-- There is a child edge labelled `n` from node `a` to node `i`. -/
def edgeTo (nodes : NodeMap) (a : Nat) (n : String) (i : Nat) : Prop :=
  ∃ ch, lookup a nodes = some (Node.branch ch) ∧ childLookup n ch = some i

/-- Well-formedness of removal-free arenas: compact keys, a root branch, edges that
increase strictly and stay in range, and at most one in-edge per node. -/
def TreeWF (nodes : NodeMap) : Prop :=
  compact nodes ∧
  (∃ ch0, lookup 0 nodes = some (Node.branch ch0)) ∧
  (∀ a n i, edgeTo nodes a n i → a < i ∧ i < nodes.length) ∧
  (∀ a na b nb i, edgeTo nodes a na i → edgeTo nodes b nb i → a = b ∧ na = nb)

/-- Every nonempty resolvable name sequence is a leading run of one of the paths
inserted so far. -/
def Routes (nodes : NodeMap) (ps : List (List String)) : Prop :=
  ∀ ns k, ns ≠ [] → wfindN nodes 0 ns = some k → ∃ p ∈ ps, segPre ns p = true

/-- Every leaf in the arena resolves, from the root, at the name sequence of its
entry's pattern-expanded local path. -/
def LeafResolve (s : Store) : Prop :=
  ∀ k e, lookup k s.nodes = some (Node.leaf e) →
    ∃ q, pathNames (e.local_path s.pattern) = some q ∧ wfindN s.nodes 0 q = some k

/-- Store states reachable through `new`, `add_entry` and `set_pattern` alone
(no removals). -/
inductive NoRemoveReach : Store → Prop where
  | new (p : Fpath) : NoRemoveReach (TreeStorage.new p)
  | add {s s' : Store} {e : OrganizeFSEntry} : NoRemoveReach s →
      TreeStorage.add_entry s e = some s' → NoRemoveReach s'
  | set {s s' : Store} {q : String} : NoRemoveReach s →
      TreeStorage.set_pattern s q = some s' → NoRemoveReach s'

/-- The arena produced by the fresh arm of `upsert`: bind `s` to the fresh
identifier `nodes.len()` inside the parent branch and store `nd` there. -/
def freshUpsert (nodes : NodeMap) (cur : Nat) (s : String) (nd : Node)
    (children : List (String × Nat)) : NodeMap :=
  mapInsert nodes.length nd
    (mapSet cur (Node.branch (childInsert s nodes.length children)) nodes)

/-- Like `ea` (display name `"a"`) but stored at a different host path. -/
def ea2 : OrganizeFSEntry := ⟨"a", ⟨true, ["h2", "a"]⟩, "1KB", "t", "2020-01-01"⟩

/-- `sC9` after `remove "/x"`: the branch `/x` is gone but `eD`'s leaf (node 2)
is still in the arena, orphaned. -/
def sC6 : Store := ⟨⟨true, ["{meta}"]⟩, [(0, Node.branch []), (2, Node.leaf eD)]⟩

/-- Two entries whose virtual paths are distinct under `/{size}` (`/1KB/x`,
`/2KB/x`) but collide under `/{meta}` (both `/a/x`). -/
def eX1 : OrganizeFSEntry := ⟨"x", ⟨true, ["h", "1"]⟩, "1KB", "a", "2020-01-01"⟩

def eX2 : OrganizeFSEntry := ⟨"x", ⟨true, ["h", "2"]⟩, "2KB", "a", "2020-01-01"⟩

/-- `new "/{size}"` after adding `eX1`. -/
def sC2a : Store :=
  ⟨⟨true, ["{size}"]⟩, [(0, Node.branch [("1KB", 1)]), (1, Node.branch [("x", 2)]),
    (2, Node.leaf eX1)]⟩

/-- … after adding `eX2` as well: two leaves. -/
def sC2 : Store :=
  ⟨⟨true, ["{size}"]⟩, [(0, Node.branch [("1KB", 1), ("2KB", 3)]),
    (1, Node.branch [("x", 2)]), (2, Node.leaf eX1), (3, Node.branch [("x", 4)]),
    (4, Node.leaf eX2)]⟩

/-- `sC2` after `set_pattern "/{meta}"`: the rebuild walks both entries to the
same virtual path `/a/x`; the second upsert silently reuses `eX1`'s leaf and
`eX2` is dropped, leaving one leaf. -/
def sC2m : Store :=
  ⟨⟨true, ["{meta}"]⟩, [(0, Node.branch [("a", 1)]), (1, Node.branch [("x", 2)]),
    (2, Node.leaf eX1)]⟩

/-- `sC4b` after `set_pattern "/{meta}"`: both entries keep distinct virtual
paths (`/t/a`, `/t/b`), so both leaves survive. -/
def sC2w : Store :=
  ⟨⟨true, ["{meta}"]⟩, [(0, Node.branch [("t", 1)]),
    (1, Node.branch [("a", 2), ("b", 3)]), (2, Node.leaf ea), (3, Node.leaf eb)]⟩

/-! ## Theorems -/

theorem segComps_valid : ∀ l s, Comp.normal s ∈ segComps l → ValidName s := by
  intro l
  induction l with
  | nil => intro s hmem; cases hmem
  | cons x rest ih =>
    intro s hmem
    by_cases h : x = "" ∨ x = "."
    · exact ih s (by simpa [segComps, h] using hmem)
    · push_neg at h
      by_cases h2 : x = ".."
      · rw [segComps, if_neg (by simp [h.1, h.2]), if_pos h2] at hmem
        rcases List.mem_cons.mp hmem with h' | h'
        · cases h'
        · exact ih s h'
      · rw [segComps, if_neg (by simp [h.1, h.2]), if_neg h2] at hmem
        rcases List.mem_cons.mp hmem with h' | h'
        · cases h'; exact ⟨h.1, h.2, h2⟩
        · exact ih s h'

theorem allNormal_append {l₁ l₂ : List Comp} (h₁ : AllNormal l₁) (h₂ : AllNormal l₂) :
    AllNormal (l₁ ++ l₂) := by
  intro c hc
  rcases List.mem_append.mp hc with h | h
  · exact h₁ c h
  · exact h₂ c h

theorem allNormal_dropLast {l : List Comp} (h : AllNormal l) : AllNormal l.dropLast :=
  fun c hc => h c (List.dropLast_subset _ hc)

theorem rootNormals_dropLast {l : List Comp} (h : RootNormals l) : RootNormals l.dropLast := by
  rcases h with h | ⟨t, rfl, ht⟩
  · exact Or.inl (allNormal_dropLast h)
  · match t with
    | [] => exact Or.inl (by intro c hc; cases hc)
    | d :: t' =>
      exact Or.inr ⟨(d :: t').dropLast, rfl, allNormal_dropLast ht⟩

theorem rootNormals_push {l : List Comp} (h : RootNormals l) {s : String}
    (hs : ValidName s) : RootNormals (l ++ [Comp.normal s]) := by
  have hsingle : AllNormal [Comp.normal s] := by
    intro c hc
    rcases List.mem_singleton.mp hc with rfl
    exact ⟨s, rfl, hs⟩
  rcases h with h | ⟨t, rfl, ht⟩
  · exact Or.inl (allNormal_append h hsingle)
  · exact Or.inr ⟨t ++ [Comp.normal s], rfl, allNormal_append ht hsingle⟩



theorem validComps_components (p : Fpath) : ValidComps p.components := by
  have hseg : ∀ l s, Comp.normal s ∈ segComps l → ValidName s := segComps_valid
  have hrel : ∀ l s, Comp.normal s ∈ relComps l → ValidName s := by
    intro l
    induction l with
    | nil => intro s hmem; cases hmem
    | cons x rest ih =>
      intro s hmem
      by_cases h0 : x = ""
      · exact ih s (by simpa [relComps, h0] using hmem)
      · by_cases h1 : x = "."
        · rw [relComps, if_neg h0, if_pos h1] at hmem
          rcases List.mem_cons.mp hmem with h | h
          · cases h
          · exact hseg rest s h
        · by_cases h2 : x = ".."
          · rw [relComps, if_neg h0, if_neg h1, if_pos h2] at hmem
            rcases List.mem_cons.mp hmem with h | h
            · cases h
            · exact hseg rest s h
          · rw [relComps, if_neg h0, if_neg h1, if_neg h2] at hmem
            rcases List.mem_cons.mp hmem with h | h
            · cases h; exact ⟨h0, h1, h2⟩
            · exact hseg rest s h
  intro s hmem
  unfold Fpath.components at hmem
  by_cases habs : p.absolute
  · rw [if_pos habs] at hmem
    rcases List.mem_cons.mp hmem with h | h
    · cases h
    · exact hseg _ s h
  · rw [if_neg habs] at hmem
    exact hrel _ s hmem

theorem validComps_cons {c : Comp} {l : List Comp} (h : ValidComps (c :: l)) :
    ValidComps l :=
  fun s hmem => h s (List.mem_cons_of_mem _ hmem)

theorem normLoop_shape (l : List Comp) : ∀ acc, ValidComps l → RootNormals acc →
    RootNormals (normLoop acc l) := by
  induction l with
  | nil => intro acc _ hacc; simpa [normLoop] using hacc
  | cons c rest ih =>
    intro acc hval hacc
    cases c with
    | root =>
      exact ih [Comp.root] (validComps_cons hval)
        (Or.inr ⟨[], rfl, by intro c hc; cases hc⟩)
    | cur => exact ih acc (validComps_cons hval) hacc
    | parent =>
      simp only [normLoop]
      cases h : acc.getLast? with
      | none => exact ih acc (validComps_cons hval) hacc
      | some d =>
        cases d with
        | normal s => exact ih _ (validComps_cons hval) (rootNormals_dropLast hacc)
        | root => exact ih acc (validComps_cons hval) hacc
        | cur => exact ih acc (validComps_cons hval) hacc
        | parent => exact ih acc (validComps_cons hval) hacc
    | normal s =>
      simp only [normLoop]
      exact ih _ (validComps_cons hval)
        (rootNormals_push hacc (hval s (List.mem_cons_self _ _)))

theorem segComps_map_compText {l : List Comp} (h : AllNormal l) :
    segComps (l.map compText) = l := by
  induction l with
  | nil => rfl
  | cons c rest ih =>
    rcases h c (List.mem_cons_self _ _) with ⟨s, rfl, hs⟩
    have hrest : AllNormal rest := fun c hc => h c (List.mem_cons_of_mem _ hc)
    simp only [List.map_cons, segComps, compText]
    rw [if_neg (by simp [hs.1, hs.2.1]), if_neg hs.2.2, ih hrest]

theorem relComps_map_compText {l : List Comp} (h : AllNormal l) :
    relComps (l.map compText) = l := by
  cases l with
  | nil => rfl
  | cons c rest =>
    rcases h c (List.mem_cons_self _ _) with ⟨s, rfl, hs⟩
    have hrest : AllNormal rest := fun c hc => h c (List.mem_cons_of_mem _ hc)
    simp only [List.map_cons, relComps, compText]
    rw [if_neg hs.1, if_neg hs.2.1, if_neg hs.2.2, segComps_map_compText hrest]

/-- Reassembling an optional-root-plus-normals component list and re-parsing it
gives back the same list (`PathBuf::from(res).components()` round trip). -/
theorem components_printComps {l : List Comp} (h : RootNormals l) :
    (printComps l).components = l := by
  rcases h with h | ⟨t, rfl, ht⟩
  · cases l with
    | nil => rfl
    | cons c rest =>
      rcases h c (List.mem_cons_self _ _) with ⟨s, rfl, hs⟩
      have hall : AllNormal (Comp.normal s :: rest) := h
      simp only [printComps, Fpath.components, List.isEmpty_cons]
      rw [if_neg (by simp)]
      exact relComps_map_compText hall
  · cases t with
    | nil => rfl
    | cons d t' =>
      have hp : printComps (Comp.root :: d :: t') = ⟨true, (d :: t').map compText⟩ := by
        simp [printComps]
      rw [hp]
      show Comp.root :: segComps ((d :: t').map compText) = _
      rw [segComps_map_compText ht]

theorem normLoop_fix {l : List Comp} (h : RootNormals l) : normLoop [] l = l := by
  have hnorm : ∀ m, AllNormal m → ∀ acc, normLoop acc m = acc ++ m := by
    intro m
    induction m with
    | nil => intro _ acc; simp [normLoop]
    | cons c rest ih =>
      intro hm acc
      rcases hm c (List.mem_cons_self _ _) with ⟨s, rfl, _⟩
      have hrest : AllNormal rest := fun c hc => hm c (List.mem_cons_of_mem _ hc)
      simp only [normLoop]
      rw [ih hrest]
      simp
  rcases h with h | ⟨t, rfl, ht⟩
  · simpa using hnorm l h []
  · simp only [normLoop]
    simpa using hnorm t ht [Comp.root]

theorem rootNormals_components_normalize (p : Fpath) :
    RootNormals (normLoop [] p.components) :=
  normLoop_shape p.components [] (validComps_components p) (Or.inl (by intro c hc; cases hc))

/-- C10 core fact: `normalize` is idempotent on the path model. -/
theorem Fpath.normalize_idempotent (p : Fpath) : p.normalize.normalize = p.normalize := by
  unfold Fpath.normalize
  rw [components_printComps (rootNormals_components_normalize p),
    normLoop_fix (rootNormals_components_normalize p)]

theorem splitLast_eq_append : ∀ {l : List Comp} {init : List Comp} {c : Comp},
    splitLast l = some (init, c) → l = init ++ [c] := by
  intro l
  induction l with
  | nil => intro init c h; cases h
  | cons d rest ih =>
    intro init c h
    cases rest with
    | nil =>
      simp only [splitLast] at h
      cases h
      rfl
    | cons d' rest' =>
      simp only [splitLast] at h
      cases hs : splitLast (d' :: rest') with
      | none => rw [hs] at h; cases h
      | some p =>
        rw [hs] at h
        cases h
        rw [ih hs]
        rfl

theorem splitLast_append : ∀ (init : List Comp) (c : Comp),
    splitLast (init ++ [c]) = some (init, c) := by
  intro init c
  induction init with
  | nil => rfl
  | cons d rest ih =>
    cases h : rest ++ [c] with
    | nil => exact absurd h (by simp)
    | cons x xs =>
      show splitLast (d :: rest ++ [c]) = _
      simp only [List.cons_append, splitLast, h]
      rw [← h, ih]

theorem walkE_append (nodes : NodeMap) (l₁ l₂ : List Comp) : ∀ cur,
    walkE nodes cur (l₁ ++ l₂) =
      match walkE nodes cur l₁ with
      | some (some m) => walkE nodes m l₂
      | r => r := by
  induction l₁ with
  | nil => intro cur; rfl
  | cons c rest ih =>
    intro cur
    cases c with
    | root => simpa only [List.cons_append, walkE] using ih 0
    | cur => rfl
    | parent => rfl
    | normal s =>
      simp only [List.cons_append, walkE]
      cases TreeStorage.find_child nodes cur s with
      | some c' => exact ih c'
      | none => rfl

theorem lookup_eraseKey (k c : Nat) (m : NodeMap) :
    lookup k (eraseKey c m) = if k = c then none else lookup k m := by
  induction m with
  | nil => by_cases h : k = c <;> simp [eraseKey, lookup, h]
  | cons kv rest ih =>
    obtain ⟨k', v⟩ := kv
    by_cases h1 : k' = c
    · subst h1
      by_cases h2 : k = k'
      · subst h2
        simp [eraseKey, lookup, ih]
      · simp [eraseKey, lookup, ih, h2, Ne.symm h2]
    · by_cases h2 : k' = k
      · subst h2
        simp [eraseKey, lookup, h1, ih, fun h : k' = c => h1 h]
      · simp [eraseKey, lookup, h1, h2, ih]

theorem lookup_mapSet (k p : Nat) (v : Node) (m : NodeMap) :
    lookup k (mapSet p v m) =
      if k = p then (lookup p m).map (fun _ => v) else lookup k m := by
  induction m with
  | nil => by_cases h : k = p <;> simp [mapSet, lookup, h]
  | cons kv rest ih =>
    obtain ⟨k', v'⟩ := kv
    by_cases h1 : k' = p
    · subst h1
      by_cases h2 : k = k'
      · subst h2
        simp [mapSet, lookup, ih]
      · simp [mapSet, lookup, ih, h2, Ne.symm h2]
    · by_cases h2 : k' = k
      · subst h2
        simp [mapSet, lookup, h1, ih, fun h : k' = p => h1 h]
      · simp [mapSet, lookup, h1, h2, ih]

theorem lookup_append_single (k p : Nat) (v : Node) (m : NodeMap) :
    lookup k (m ++ [(p, v)]) = if (lookup k m).isSome then lookup k m
      else if p = k then some v else none := by
  induction m with
  | nil => simp [lookup]
  | cons kv rest ih =>
    obtain ⟨k', v'⟩ := kv
    by_cases h : k' = k <;> simp [lookup, h, ih]

theorem lookup_mapInsert (k p : Nat) (v : Node) (m : NodeMap) :
    lookup k (mapInsert p v m) = if k = p then some v else lookup k m := by
  unfold mapInsert
  cases h : lookup p m with
  | some w =>
    rw [if_pos (by simp [h]), lookup_mapSet, h]
    rfl
  | none =>
    rw [if_neg (by simp [h]), lookup_append_single]
    by_cases h2 : k = p
    · subst h2
      simp [h]
    · cases h3 : lookup k m <;> simp [h3, h2, Ne.symm h2]

theorem childLookup_childErase (n name : String) (ch : List (String × Nat)) :
    childLookup n (childErase name ch) = if n = name then none else childLookup n ch := by
  induction ch with
  | nil => by_cases h : n = name <;> simp [childErase, childLookup, h]
  | cons ni rest ih =>
    obtain ⟨n', i⟩ := ni
    by_cases h1 : n' = name
    · subst h1
      by_cases h2 : n = n'
      · subst h2
        simp [childErase, childLookup, ih]
      · simp [childErase, childLookup, ih, h2, Ne.symm h2]
    · by_cases h2 : n' = n
      · subst h2
        simp [childErase, childLookup, h1, ih, fun h : n' = name => h1 h]
      · simp [childErase, childLookup, h1, h2, ih]

theorem childLookup_childSet (n name : String) (i : Nat) (ch : List (String × Nat)) :
    childLookup n (childSet name i ch) =
      if n = name then (childLookup name ch).map (fun _ => i) else childLookup n ch := by
  induction ch with
  | nil => by_cases h : n = name <;> simp [childSet, childLookup, h]
  | cons ni rest ih =>
    obtain ⟨n', j⟩ := ni
    by_cases h1 : n' = name
    · subst h1
      by_cases h2 : n = n'
      · subst h2
        simp [childSet, childLookup, ih]
      · simp [childSet, childLookup, ih, h2, Ne.symm h2]
    · by_cases h2 : n' = n
      · subst h2
        simp [childSet, childLookup, h1, ih, fun h : n' = name => h1 h]
      · simp [childSet, childLookup, h1, h2, ih]

theorem childLookup_append_single (n name : String) (i : Nat) (ch : List (String × Nat)) :
    childLookup n (ch ++ [(name, i)]) = if (childLookup n ch).isSome then childLookup n ch
      else if name = n then some i else none := by
  induction ch with
  | nil => simp [childLookup]
  | cons ni rest ih =>
    obtain ⟨n', j⟩ := ni
    by_cases h : n' = n <;> simp [childLookup, h, ih]

theorem childLookup_childInsert (n name : String) (i : Nat) (ch : List (String × Nat)) :
    childLookup n (childInsert name i ch) =
      if n = name then some i else childLookup n ch := by
  unfold childInsert
  cases h : childLookup name ch with
  | some j =>
    rw [if_pos (by simp [h]), childLookup_childSet, h]
    rfl
  | none =>
    rw [if_neg (by simp [h]), childLookup_append_single]
    by_cases h2 : n = name
    · subst h2
      simp [h]
    · cases h3 : childLookup n ch <;> simp [h3, h2, Ne.symm h2]


/-- After deleting child `name` from the branch `pid` and erasing node `cid` from the
arena, any walk that used to resolve either misses (`some none`) or resolves to the
same identifier.  This is the stability core of the `remove`/`find` contract. -/
theorem walkE_after_remove {N : NodeMap} {pid cid : Nat} {name : String}
    {ch : List (String × Nat)} (hpid : lookup pid N = some (Node.branch ch)) :
    ∀ (comps : List Comp) (cur r : Nat),
      walkE N cur comps = some (some r) →
      walkE (eraseKey cid (mapSet pid (Node.branch (childErase name ch)) N)) cur comps
          = some none ∨
        walkE (eraseKey cid (mapSet pid (Node.branch (childErase name ch)) N)) cur comps
          = some (some r) := by
  intro comps
  set N' := eraseKey cid (mapSet pid (Node.branch (childErase name ch)) N) with hN'
  have hlook : ∀ k, lookup k N' = if k = cid then none
      else if k = pid then some (Node.branch (childErase name ch)) else lookup k N := by
    intro k
    rw [hN', lookup_eraseKey, lookup_mapSet]
    by_cases h1 : k = cid
    · simp [h1]
    · rw [if_neg h1, if_neg h1]
      by_cases h2 : k = pid
      · subst h2
        simp [hpid]
      · rw [if_neg h2, if_neg h2]
  induction comps with
  | nil => intro cur r h; exact Or.inr h
  | cons c rest ih =>
    intro cur r h
    cases c with
    | root => exact ih 0 r h
    | cur => cases h
    | parent => cases h
    | normal s =>
      simp only [walkE] at h ⊢
      cases hfc : TreeStorage.find_child N cur s with
      | none => rw [hfc] at h; cases h
      | some c' =>
        rw [hfc] at h
        by_cases h1 : cur = cid
        · left
          have hfc' : TreeStorage.find_child N' cur s = none := by
            unfold TreeStorage.find_child
            rw [hlook, if_pos h1]
          rw [hfc']
        · by_cases h2 : cur = pid
          · subst h2
            unfold TreeStorage.find_child at hfc
            rw [hpid] at hfc
            have hfc' : TreeStorage.find_child N' cur s = childLookup s (childErase name ch) := by
              unfold TreeStorage.find_child
              rw [hlook, if_neg h1, if_pos rfl]
            by_cases h3 : s = name
            · left
              rw [hfc', childLookup_childErase, if_pos h3]
            · have hfc2 : childLookup s ch = some c' := hfc
              rw [hfc', childLookup_childErase, if_neg h3, hfc2]
              exact ih c' r h
          · have hfc' : TreeStorage.find_child N' cur s = TreeStorage.find_child N cur s := by
              unfold TreeStorage.find_child
              rw [hlook, if_neg h1, if_neg h2]
            rw [hfc', hfc]
            exact ih c' r h

/-- Part one of the removal contract: a removal that reports `true` makes the removed
path unresolvable. -/
theorem remove_true_find_none {s s' : Store} {p : Fpath}
    (h : TreeStorage.remove s p = some (true, s')) :
    TreeStorage.find s' p = some none := by
  unfold TreeStorage.remove at h
  split at h
  · simp at h
  · rename_i init last hsl
    split at h
    · simp at h
    · rename_i name
      split at h
      · simp at h
      · simp at h
      · rename_i pid hw
        split at h
        · rename_i ch hpl
          split at h
          · rename_i cid hcl
            simp only [Option.some.injEq, Prod.mk.injEq] at h
            obtain ⟨hb, hs'⟩ := h
            have hn : s'.nodes =
                eraseKey cid (mapSet pid (Node.branch (childErase name ch)) s.nodes) := by
              rw [← hs']
            have hp : p.components = init ++ [Comp.normal name] := splitLast_eq_append hsl
            unfold TreeStorage.find
            rw [hp, hn, walkE_append]
            rcases walkE_after_remove hpl init 0 pid hw with hc | hc
            · rw [hc]
            · rw [hc]
              have hfc' : TreeStorage.find_child
                  (eraseKey cid (mapSet pid (Node.branch (childErase name ch)) s.nodes))
                  pid name = none := by
                unfold TreeStorage.find_child
                rw [lookup_eraseKey, lookup_mapSet]
                by_cases h1 : pid = cid
                · rw [if_pos h1]
                · rw [if_neg h1, if_pos rfl, hpl]
                  show childLookup name (childErase name ch) = none
                  rw [childLookup_childErase, if_pos rfl]
              simp only [walkE, hfc']
          · simp at h
        · simp at h
    · split at h
      · simp at h
      · simp at h

/-- Part two of the removal contract: removing a path that does not resolve reports
`false` and returns the store unchanged. -/
theorem find_none_remove_false {s : Store} {p : Fpath}
    (h : TreeStorage.find s p = some none) :
    TreeStorage.remove s p = some (false, s) := by
  unfold TreeStorage.find at h
  unfold TreeStorage.remove
  split
  · rfl
  · rename_i init last hsl
    have hp : p.components = init ++ [last] := splitLast_eq_append hsl
    rw [hp, walkE_append] at h
    split
    · rfl
    · rename_i name
      split
      · rename_i hw
        rw [hw] at h
        cases h
      · rfl
      · rename_i pid hw
        rw [hw] at h
        simp only [walkE] at h
        split
        · rename_i ch hpl
          split
          · rename_i cid hcl
            have hfc : TreeStorage.find_child s.nodes pid name = some cid := by
              unfold TreeStorage.find_child
              rw [hpl]
              exact hcl
            rw [hfc] at h
            cases h
          · rfl
        · rfl
    · rename_i hne hroot
      split
      · rename_i hw
        rw [hw] at h
        cases h
      · rfl

theorem segComps_no_root_cur : ∀ l, Comp.root ∉ segComps l ∧ Comp.cur ∉ segComps l := by
  intro l
  induction l with
  | nil =>
    constructor
    · intro h; cases h
    · intro h; cases h
  | cons s rest ih =>
    unfold segComps
    by_cases h : s = "" ∨ s = "."
    · simpa [h] using ih
    · rw [if_neg h]
      by_cases h2 : s = ".."
      · rw [if_pos h2]
        exact ⟨fun hm => by
            rcases List.mem_cons.mp hm with hm | hm
            · cases hm
            · exact ih.1 hm,
          fun hm => by
            rcases List.mem_cons.mp hm with hm | hm
            · cases hm
            · exact ih.2 hm⟩
      · rw [if_neg h2]
        exact ⟨fun hm => by
            rcases List.mem_cons.mp hm with hm | hm
            · cases hm
            · exact ih.1 hm,
          fun hm => by
            rcases List.mem_cons.mp hm with hm | hm
            · cases hm
            · exact ih.2 hm⟩

/-- After its first component, a parsed path contains neither `RootDir` nor
`CurDir`: Rust's `Path::components()` only yields them in leading position. -/
theorem components_tail_clean (p : Fpath) :
    ∀ c ∈ p.components.drop 1, c ≠ Comp.root ∧ c ≠ Comp.cur := by
  intro c hc
  unfold Fpath.components at hc
  by_cases habs : p.absolute
  · rw [if_pos habs] at hc
    simp only [List.drop_one, List.tail_cons] at hc
    exact ⟨fun h => (segComps_no_root_cur p.segs).1 (h ▸ hc),
      fun h => (segComps_no_root_cur p.segs).2 (h ▸ hc)⟩
  · rw [if_neg habs] at hc
    have : ∀ l (c : Comp), c ∈ (relComps l).drop 1 → c ≠ Comp.root ∧ c ≠ Comp.cur := by
      intro l
      induction l with
      | nil => intro c hc; cases hc
      | cons x rest ih =>
        intro c hc
        unfold relComps at hc
        by_cases h0 : x = ""
        · rw [if_pos h0] at hc
          exact ih c hc
        · rw [if_neg h0] at hc
          by_cases h1 : x = "."
          · rw [if_pos h1] at hc
            simp only [List.drop_one, List.tail_cons] at hc
            exact ⟨fun h => (segComps_no_root_cur rest).1 (h ▸ hc),
              fun h => (segComps_no_root_cur rest).2 (h ▸ hc)⟩
          · rw [if_neg h1] at hc
            by_cases h2 : x = ".."
            · rw [if_pos h2] at hc
              simp only [List.drop_one, List.tail_cons] at hc
              exact ⟨fun h => (segComps_no_root_cur rest).1 (h ▸ hc),
                fun h => (segComps_no_root_cur rest).2 (h ▸ hc)⟩
            · rw [if_neg h2] at hc
              simp only [List.drop_one, List.tail_cons] at hc
              exact ⟨fun h => (segComps_no_root_cur rest).1 (h ▸ hc),
                fun h => (segComps_no_root_cur rest).2 (h ▸ hc)⟩
    exact this p.segs c hc

/-- A path whose components are only `RootDir`s and `Normal`s re-parses to itself
after normalization, so `find` treats it and its normalized form alike. -/
theorem components_normalize_id (p : Fpath)
    (hcomps : ∀ c ∈ p.components, c = Comp.root ∨ ∃ n, c = Comp.normal n) :
    p.normalize.components = p.components := by
  have hval : ValidComps p.components := validComps_components p
  have hshape : RootNormals p.components := by
    cases hcm : p.components with
    | nil => exact Or.inl (by intro c hc; cases hc)
    | cons c rest =>
      have htail : AllNormal rest := by
        intro c' hc'
        have hmem : c' ∈ p.components.drop 1 := by rw [hcm]; simpa using hc'
        have hclean := components_tail_clean p c' hmem
        rcases hcomps c' (by rw [hcm]; exact List.mem_cons_of_mem _ hc') with h | ⟨n, hn⟩
        · exact absurd h hclean.1
        · subst hn
          exact ⟨n, rfl, hval n (by rw [hcm]; exact List.mem_cons_of_mem _ hc')⟩
      rcases hcomps c (by rw [hcm]; exact List.mem_cons_self _ _) with hr | ⟨n, hn⟩
      · subst hr
        exact Or.inr ⟨rest, rfl, htail⟩
      · subst hn
        refine Or.inl ?_
        intro c' hc'
        rcases List.mem_cons.mp hc' with hr | hc'
        · subst hr
          exact ⟨n, rfl, hval n (by rw [hcm]; exact List.mem_cons_self _ _)⟩
        · exact htail c' hc'
  unfold Fpath.normalize
  rw [normLoop_fix hshape, components_printComps hshape]

/-- On paths free of `..` (and of a leading `.`), `find` agrees with `find` of the
normalized path: `Path::components()` already drops `.` segments and duplicate
separators, and normalization then reproduces the same component list. -/
theorem find_eq_find_normalize (s : Store) (p : Fpath)
    (hcomps : ∀ c ∈ p.components, c = Comp.root ∨ ∃ n, c = Comp.normal n) :
    TreeStorage.find s p = TreeStorage.find s p.normalize := by
  unfold TreeStorage.find
  rw [components_normalize_id p hcomps]

theorem childLookup_mem {name : String} {ch : List (String × Nat)} {i : Nat}
    (h : childLookup name ch = some i) : (name, i) ∈ ch := by
  induction ch with
  | nil => cases h
  | cons ni rest ih =>
    obtain ⟨n', j⟩ := ni
    unfold childLookup at h
    by_cases h2 : n' = name
    · rw [if_pos h2] at h
      injection h with h
      subst h2; subst h
      exact List.mem_cons_self _ _
    · rw [if_neg h2] at h
      exact List.mem_cons_of_mem _ (ih h)

theorem mem_childErase {ni : String × Nat} {name : String} {ch : List (String × Nat)}
    (h : ni ∈ childErase name ch) : ni ∈ ch := by
  induction ch with
  | nil => cases h
  | cons mj rest ih =>
    obtain ⟨m, j⟩ := mj
    unfold childErase at h
    by_cases h2 : m = name
    · rw [if_pos h2] at h
      exact List.mem_cons_of_mem _ (ih h)
    · rw [if_neg h2] at h
      rcases List.mem_cons.mp h with h | h
      · exact h ▸ List.mem_cons_self _ _
      · exact List.mem_cons_of_mem _ (ih h)

theorem mem_childSet {ni : String × Nat} {name : String} {i : Nat}
    {ch : List (String × Nat)} (h : ni ∈ childSet name i ch) :
    ni ∈ ch ∨ ni = (name, i) := by
  induction ch with
  | nil => cases h
  | cons mj rest ih =>
    obtain ⟨m, j⟩ := mj
    unfold childSet at h
    by_cases h2 : m = name
    · rw [if_pos h2] at h
      rcases List.mem_cons.mp h with h | h
      · exact Or.inr h
      · rcases ih h with h | h
        · exact Or.inl (List.mem_cons_of_mem _ h)
        · exact Or.inr h
    · rw [if_neg h2] at h
      rcases List.mem_cons.mp h with h | h
      · exact Or.inl (h ▸ List.mem_cons_self _ _)
      · rcases ih h with h | h
        · exact Or.inl (List.mem_cons_of_mem _ h)
        · exact Or.inr h

theorem mem_childInsert {ni : String × Nat} {name : String} {i : Nat}
    {ch : List (String × Nat)} (h : ni ∈ childInsert name i ch) :
    ni ∈ ch ∨ ni = (name, i) := by
  unfold childInsert at h
  by_cases h2 : (childLookup name ch).isSome
  · rw [if_pos h2] at h
    exact mem_childSet h
  · rw [if_neg h2] at h
    rcases List.mem_append.mp h with h | h
    · exact Or.inl h
    · exact Or.inr (List.mem_singleton.mp h)

theorem storeInv_nonempty {nodes : NodeMap} (hinv : StoreInv nodes) : 1 ≤ nodes.length := by
  obtain ⟨ch0, h0⟩ := hinv.1
  cases hm : nodes with
  | nil => rw [hm] at h0; cases h0
  | cons kv rest => simp

theorem storeInv_upsert {nodes : NodeMap} {pid : Nat} {name : String} {nd : Node}
    {i : Nat} {nodes' : NodeMap}
    (hinv : StoreInv nodes)
    (hnd : ∀ ch ni, nd = Node.branch ch → ni ∈ ch → 1 ≤ ni.2)
    (h : TreeStorage.upsert nodes pid name nd = some (i, nodes')) :
    StoreInv nodes' := by
  unfold TreeStorage.upsert at h
  split at h
  · rename_i children hpl
    split at h
    · rename_i hcl
      simp only [Option.some.injEq, Prod.mk.injEq] at h
      obtain ⟨hi, hn⟩ := h
      subst hn
      have hlen : 1 ≤ nodes.length := storeInv_nonempty hinv
      constructor
      · rw [lookup_mapInsert, if_neg (by omega), lookup_mapSet]
        by_cases hp0 : (0 : Nat) = pid
        · subst hp0
          rw [if_pos rfl, hpl]
          exact ⟨childInsert name nodes.length children, rfl⟩
        · rw [if_neg hp0]
          exact hinv.1
      · intro k ch' hk ni hni
        rw [lookup_mapInsert] at hk
        by_cases hknew : k = nodes.length
        · rw [if_pos hknew] at hk
          injection hk with hk
          exact hnd ch' ni hk hni
        · rw [if_neg hknew, lookup_mapSet] at hk
          by_cases hkp : k = pid
          · subst hkp
            rw [if_pos rfl, hpl] at hk
            replace hk : some (Node.branch (childInsert name nodes.length children)) =
                some (Node.branch ch') := hk
            injection hk with hk
            injection hk with hk
            rcases mem_childInsert (hk ▸ hni) with hm | hm
            · exact hinv.2 k children hpl ni hm
            · rw [hm]
              exact hlen
          · rw [if_neg hkp] at hk
            exact hinv.2 k ch' hk ni hni
    · rename_i j hcl
      simp only [Option.some.injEq, Prod.mk.injEq] at h
      obtain ⟨hi, hn⟩ := h
      exact hn ▸ hinv
  · cases h
  · cases h

theorem storeInv_insertWalk : ∀ (comps : List Comp) (nodes : NodeMap) (cur : Nat)
    (r : Nat × NodeMap), StoreInv nodes → insertWalk nodes cur comps = some r →
    StoreInv r.2 := by
  intro comps
  induction comps with
  | nil =>
    intro nodes cur r hinv h
    cases h
    exact hinv
  | cons c rest ih =>
    intro nodes cur r hinv h
    cases c with
    | root => exact ih nodes 0 r hinv h
    | cur => cases h
    | parent => cases h
    | normal s =>
      simp only [insertWalk] at h
      cases hu : TreeStorage.upsert nodes cur s (Node.branch []) with
      | none => rw [hu] at h; cases h
      | some cn =>
        obtain ⟨c', n'⟩ := cn
        rw [hu] at h
        refine ih n' c' r ?_ h
        refine storeInv_upsert hinv ?_ hu
        intro ch ni hch hni
        cases hch
        cases hni

theorem storeInv_add_entry_inner {nodes : NodeMap} {pat : Fpath} {e : OrganizeFSEntry}
    {nodes' : NodeMap} (hinv : StoreInv nodes)
    (h : TreeStorage.add_entry_inner nodes pat e = some nodes') :
    StoreInv nodes' := by
  unfold TreeStorage.add_entry_inner at h
  split at h
  · rename_i init name hsl
    split at h
    · rename_i pid nodes₁ hw
      split at h
      · rename_i j nodes₂ hu
        injection h with h
        subst h
        have hinv₁ : StoreInv nodes₁ := storeInv_insertWalk init nodes 0 (pid, nodes₁) hinv hw
        refine storeInv_upsert hinv₁ ?_ hu
        intro ch ni hch hni
        cases hch
      · cases h
    · cases h
  · cases h

theorem storeInv_foldl : ∀ (es : List OrganizeFSEntry) (pat : Fpath)
    (nodes nodes' : NodeMap), StoreInv nodes →
    es.foldlM (fun acc e => TreeStorage.add_entry_inner acc pat e) nodes = some nodes' →
    StoreInv nodes' := by
  intro es
  induction es with
  | nil =>
    intro pat nodes nodes' hinv h
    cases h
    exact hinv
  | cons e rest ih =>
    intro pat nodes nodes' hinv h
    rw [List.foldlM_cons] at h
    cases ha : TreeStorage.add_entry_inner nodes pat e with
    | none => rw [ha] at h; cases h
    | some n₁ =>
      rw [ha] at h
      exact ih pat n₁ nodes' (storeInv_add_entry_inner hinv ha) h

theorem storeInv_new (p : Fpath) : StoreInv (TreeStorage.new p).nodes := by
  refine ⟨⟨[], rfl⟩, ?_⟩
  intro k ch hk ni hni
  simp only [TreeStorage.new, lookup] at hk
  split at hk
  · injection hk with hk
    injection hk with hk
    rw [← hk] at hni
    cases hni
  · cases hk

theorem storeInv_remove {s : Store} {p : Fpath} {b : Bool} {s' : Store}
    (hinv : StoreInv s.nodes) (h : TreeStorage.remove s p = some (b, s')) :
    StoreInv s'.nodes := by
  unfold TreeStorage.remove at h
  split at h
  · simp only [Option.some.injEq, Prod.mk.injEq] at h
    exact h.2 ▸ hinv
  · rename_i init last hsl
    split at h
    · simp only [Option.some.injEq, Prod.mk.injEq] at h
      exact h.2 ▸ hinv
    · rename_i name
      split at h
      · cases h
      · simp only [Option.some.injEq, Prod.mk.injEq] at h
        exact h.2 ▸ hinv
      · rename_i pid hw
        split at h
        · rename_i ch hpl
          split at h
          · rename_i cid hcl
            simp only [Option.some.injEq, Prod.mk.injEq] at h
            obtain ⟨hb, hs'⟩ := h
            have hn : s'.nodes =
                eraseKey cid (mapSet pid (Node.branch (childErase name ch)) s.nodes) := by
              rw [← hs']
            rw [hn]
            have hcid : 1 ≤ cid := hinv.2 pid ch hpl (name, cid) (childLookup_mem hcl)
            constructor
            · rw [lookup_eraseKey, if_neg (by omega), lookup_mapSet]
              by_cases hp0 : (0 : Nat) = pid
              · subst hp0
                rw [if_pos rfl, hpl]
                exact ⟨childErase name ch, rfl⟩
              · rw [if_neg hp0]
                exact hinv.1
            · intro k ch' hk ni hni
              rw [lookup_eraseKey] at hk
              by_cases hkc : k = cid
              · rw [if_pos hkc] at hk
                cases hk
              · rw [if_neg hkc, lookup_mapSet] at hk
                by_cases hkp : k = pid
                · subst hkp
                  rw [if_pos rfl, hpl] at hk
                  replace hk : some (Node.branch (childErase name ch)) =
                      some (Node.branch ch') := hk
                  injection hk with hk
                  injection hk with hk
                  exact hinv.2 k ch hpl ni (mem_childErase (hk ▸ hni))
                · rw [if_neg hkp] at hk
                  exact hinv.2 k ch' hk ni hni
          · simp only [Option.some.injEq, Prod.mk.injEq] at h
            exact h.2 ▸ hinv
        · simp only [Option.some.injEq, Prod.mk.injEq] at h
          exact h.2 ▸ hinv
    · split at h
      · cases h
      · simp only [Option.some.injEq, Prod.mk.injEq] at h
        exact h.2 ▸ hinv

theorem storeInv_set_pattern {s s' : Store} {q : String}
    (h : TreeStorage.set_pattern s q = some s') : StoreInv s'.nodes := by
  unfold TreeStorage.set_pattern at h
  split at h
  · rename_i nn hf
    injection h with h
    subst h
    refine storeInv_foldl (TreeStorage.leafEntries s.nodes) _ _ _ ?_ hf
    refine ⟨⟨[], rfl⟩, ?_⟩
    intro k ch hk ni hni
    simp only [lookup] at hk
    split at hk
    · injection hk with hk
      injection hk with hk
      rw [← hk] at hni
      cases hni
    · cases hk
  · cases h

/-- `StoreInv` holds in every reachable store state. -/
theorem reachable_storeInv {s : Store} (h : Reachable s) : StoreInv s.nodes := by
  induction h with
  | new p => exact storeInv_new p
  | add hr ha ih =>
    rename_i s₀ s₁ e
    unfold TreeStorage.add_entry at ha
    cases hai : TreeStorage.add_entry_inner s₀.nodes s₀.pattern e with
    | none => rw [hai] at ha; cases ha
    | some n₁ =>
      rw [hai] at ha
      injection ha with ha
      rw [← ha]
      exact storeInv_add_entry_inner ih hai
  | rem hr hrem ih => exact storeInv_remove ih hrem
  | set hr hset ih => exact storeInv_set_pattern hset

/-! ## Claim theorems -/

/-- C10: normalization is idempotent — for every path `x`,
`normalize(normalize(x)) = normalize(x)`. -/
theorem C10_normalize_idempotent (p : Fpath) : p.normalize.normalize = p.normalize :=
  Fpath.normalize_idempotent p

/-- C3 counterexample: `find` does *not* normalize its argument.  On the lookup path
`"/.."` it hits `unreachable!()` (modelled `none`), while on the normalized form
`"/"` it returns the root — so the two results differ, refuting the claim as
stated. -/
theorem C3_counterexample :
    TreeStorage.find (TreeStorage.new ⟨true, [""]⟩) ⟨true, [".."]⟩ ≠
      TreeStorage.find (TreeStorage.new ⟨true, [""]⟩) (Fpath.normalize ⟨true, [".."]⟩) := by
  decide

/-- C3 (amended): `find` never normalizes, but for every path whose components are
only `RootDir`s and `Normal`s — i.e. every path free of `..` and of a leading `.`
(Rust's component parsing already drops interior `.` and duplicate separators) —
`find(p)` equals `find(normalize(p))`; a path containing `..` instead panics. -/
theorem C3_find_agrees_with_normalized (s : Store) (p : Fpath)
    (hcomps : ∀ c ∈ p.components, c ≠ Comp.cur ∧ c ≠ Comp.parent) :
    TreeStorage.find s p = TreeStorage.find s p.normalize := by
  refine find_eq_find_normalize s p ?_
  intro c hc
  rcases hcomps c hc with ⟨h1, h2⟩
  cases c with
  | root => exact Or.inl rfl
  | cur => exact absurd rfl h1
  | parent => exact absurd rfl h2
  | normal n => exact Or.inr ⟨n, rfl⟩

theorem C3_witness :
    TreeStorage.find (TreeStorage.new ⟨true, [""]⟩) ⟨true, ["a", ".", "b"]⟩ =
      TreeStorage.find (TreeStorage.new ⟨true, [""]⟩)
        (Fpath.normalize ⟨true, ["a", ".", "b"]⟩) :=
  C3_find_agrees_with_normalized (TreeStorage.new ⟨true, [""]⟩) ⟨true, ["a", ".", "b"]⟩
    (by decide)

/-- C5: removal postconditions — a `remove` that returns `true` makes the removed
path unresolvable, and removing a path that does not resolve returns `false` with
the store unchanged. -/
theorem C5_remove_postconditions (s : Store) (p : Fpath) :
    (∀ s', TreeStorage.remove s p = some (true, s') → TreeStorage.find s' p = some none) ∧
    (TreeStorage.find s p = some none → TreeStorage.remove s p = some (false, s)) :=
  ⟨fun _ h => remove_true_find_none h, fun h => find_none_remove_false h⟩

theorem C5_witness :
    TreeStorage.find sC5' ⟨true, ["x"]⟩ = some none ∧
    TreeStorage.remove sC5 ⟨true, ["q"]⟩ = some (false, sC5) :=
  ⟨(C5_remove_postconditions sC5 ⟨true, ["x"]⟩).1 sC5' (by decide),
    (C5_remove_postconditions sC5 ⟨true, ["q"]⟩).2 (by decide)⟩

/-- C7: the root invariant — in every store state reachable through `new`,
`add_entry`, `remove` and `set_pattern` (`find` does not mutate), identifier `0`
is present and is a `Branch`; no operation removes it or turns it into a leaf. -/
theorem C7_root_invariant (s : Store) (h : Reachable s) :
    ∃ ch, lookup 0 s.nodes = some (Node.branch ch) :=
  (reachable_storeInv h).1

theorem C7_witness :
    ∃ ch, lookup 0 (TreeStorage.new ⟨true, [""]⟩).nodes = some (Node.branch ch) :=
  C7_root_invariant (TreeStorage.new ⟨true, [""]⟩) (Reachable.new ⟨true, [""]⟩)

/-- C9 counterexample: upserting a Leaf under a name held by a Branch does *not*
abort.  Under pattern `/{meta}`, `eD` creates the branch `/x`; adding `eC9`
(whose virtual path is `/x`) then returns successfully with the store unchanged —
the entry is silently dropped instead of the claimed process abort. -/
theorem C9_counterexample :
    TreeStorage.add_entry (TreeStorage.new ⟨true, ["{meta}"]⟩) eD = some sC9 ∧
    TreeStorage.add_entry sC9 eC9 = some sC9 := by
  decide

/-- C9 (amended): of the two collision shapes, only descending through a Leaf is
fatal — `upsert` panics when the parent is a Leaf (or missing); upserting under a
name already bound in a Branch parent silently returns the existing identifier and
leaves the arena untouched, whatever kind of node is being inserted. -/
theorem C9_collision_behaviour (nodes : NodeMap) (pid : Nat) (name : String) (nd : Node) :
    ((∃ e, lookup pid nodes = some (Node.leaf e)) →
      TreeStorage.upsert nodes pid name nd = none) ∧
    (∀ ch i, lookup pid nodes = some (Node.branch ch) → childLookup name ch = some i →
      TreeStorage.upsert nodes pid name nd = some (i, nodes)) := by
  constructor
  · intro hleaf
    obtain ⟨e, he⟩ := hleaf
    unfold TreeStorage.upsert
    rw [he]
  · intro ch i hb hcl
    unfold TreeStorage.upsert
    simp only [hb, hcl]

theorem C9_witness :
    TreeStorage.upsert [(0, Node.leaf eW)] 0 "y" (Node.branch []) = none ∧
    TreeStorage.upsert sC9.nodes 0 "x" (Node.leaf eC9) = some (1, sC9.nodes) :=
  ⟨(C9_collision_behaviour [(0, Node.leaf eW)] 0 "y" (Node.branch [])).1 ⟨eW, by decide⟩,
    (C9_collision_behaviour sC9.nodes 0 "x" (Node.leaf eC9)).2 [("x", 1)] 1 (by decide)
      (by decide)⟩

/-- C4: identifier freshness fails — `upsert` allocates `new_id = nodes.len()`,
which after a removal can collide with a live key.  Starting from `new "/"`:
add `ea`, add `eb`, remove `"/a"` (len drops to 2 while key 2 is live), then add
`ec`: the new leaf is stored at identifier 2, *overwriting* `eb`'s leaf, and both
names `"b"` and `"c"` now map to node 2, whose host path is `ec`'s. -/
theorem C4_freshness_violation :
    TreeStorage.add_entry (TreeStorage.new ⟨true, [""]⟩) ea = some sC4a ∧
    TreeStorage.add_entry sC4a eb = some sC4b ∧
    TreeStorage.remove sC4b ⟨true, ["a"]⟩ = some (true, sC4r) ∧
    TreeStorage.add_entry sC4r ec = some sC4o ∧
    TreeStorage.find sC4o ⟨true, ["b"]⟩ = some (some 2) ∧
    TreeStorage.find sC4o ⟨true, ["c"]⟩ = some (some 2) ∧
    lookup 2 sC4o.nodes = some (Node.leaf ec) ∧
    TreeStorage.host_path sC4o.nodes 2 ≠ some eb.host_path := by
  decide

theorem segComps_append_valid {x : String} (hx : ValidName x) :
    ∀ l, segComps (l ++ [x]) = segComps l ++ [Comp.normal x] := by
  intro l
  induction l with
  | nil => simp [segComps, hx.1, hx.2.1, hx.2.2]
  | cons s rest ih =>
    by_cases h : s = "" ∨ s = "."
    · simp [segComps, h, ih]
    · simp [segComps, h, ih]

theorem segComps_append_empty : ∀ l, segComps (l ++ [""]) = segComps l := by
  intro l
  induction l with
  | nil => simp [segComps]
  | cons s rest ih =>
    by_cases h : s = "" ∨ s = "."
    · simp [segComps, h, ih]
    · simp [segComps, h, ih]

theorem relComps_append_valid {x : String} (hx : ValidName x) :
    ∀ l, relComps (l ++ [x]) = relComps l ++ [Comp.normal x] := by
  intro l
  induction l with
  | nil => simp [relComps, segComps, hx.1, hx.2.1, hx.2.2]
  | cons s rest ih =>
    by_cases h0 : s = ""
    · simp [relComps, h0, ih]
    · by_cases h1 : s = "."
      · simp [relComps, h0, h1, segComps_append_valid hx]
      · by_cases h2 : s = ".."
        · simp [relComps, h0, h1, h2, segComps_append_valid hx]
        · simp [relComps, h0, h1, h2, segComps_append_valid hx]

theorem relComps_append_empty : ∀ l, relComps (l ++ [""]) = relComps l := by
  intro l
  induction l with
  | nil => simp [relComps]
  | cons s rest ih =>
    by_cases h0 : s = ""
    · simp [relComps, h0, ih]
    · by_cases h1 : s = "."
      · simp [relComps, h0, h1, segComps_append_empty]
      · by_cases h2 : s = ".."
        · simp [relComps, h0, h1, h2, segComps_append_empty]
        · simp [relComps, h0, h1, h2, segComps_append_empty]

/-- Pushing a single plain name onto a path appends exactly one `Normal`
component. -/
theorem push_components (p : Fpath) {name : String}
    (hof : Fpath.ofString name = ⟨false, [name]⟩) (hval : ValidName name) :
    (p.push name).components = p.components ++ [Comp.normal name] := by
  obtain ⟨abs, segs⟩ := p
  have hpush : Fpath.push ⟨abs, segs⟩ name =
      if abs = false ∧ segs = [""] then ⟨false, [name]⟩
      else if segs.getLast? = some "" then ⟨abs, segs.dropLast ++ [name]⟩
      else ⟨abs, segs ++ [name]⟩ := by
    unfold Fpath.push
    rw [hof]
    rfl
  rw [hpush]
  split_ifs with h1 h2
  · obtain ⟨rfl, rfl⟩ := h1
    show relComps [name] = relComps [""] ++ [Comp.normal name]
    simp [relComps, segComps, hval.1, hval.2.1, hval.2.2]
  · have hsegs : segs = segs.dropLast ++ [""] :=
      (List.dropLast_append_getLast? "" h2).symm
    cases abs
    · show relComps (segs.dropLast ++ [name]) = relComps segs ++ [Comp.normal name]
      rw [relComps_append_valid hval]
      conv_rhs => rw [hsegs]
      rw [relComps_append_empty]
    · show Comp.root :: segComps (segs.dropLast ++ [name]) =
        Comp.root :: segComps segs ++ [Comp.normal name]
      rw [segComps_append_valid hval]
      conv_rhs => rw [hsegs]
      rw [segComps_append_empty]
      simp
  · cases abs
    · show relComps (segs ++ [name]) = relComps segs ++ [Comp.normal name]
      rw [relComps_append_valid hval]
    · show Comp.root :: segComps (segs ++ [name]) =
        Comp.root :: segComps segs ++ [Comp.normal name]
      rw [segComps_append_valid hval]
      simp

theorem mem_childErase_ne {ni : String × Nat} {name : String} {ch : List (String × Nat)}
    (h : ni ∈ childErase name ch) : ni.1 ≠ name := by
  induction ch with
  | nil => cases h
  | cons mj rest ih =>
    obtain ⟨m, j⟩ := mj
    unfold childErase at h
    by_cases h2 : m = name
    · rw [if_pos h2] at h
      exact ih h
    · rw [if_neg h2] at h
      rcases List.mem_cons.mp h with h | h
      · subst h
        exact h2
      · exact ih h

/-- Removing a leaf (child `name` of branch `pid`, node `cid`) leaves every walk
that resolved to some other identifier intact, provided no interior `RootDir`
restarts the walk. -/
theorem walkE_leaf_remove_core {N : NodeMap} {pid cid : Nat} {name : String}
    {ch : List (String × Nat)} {e : OrganizeFSEntry}
    (hpid : lookup pid N = some (Node.branch ch))
    (hcl : childLookup name ch = some cid)
    (hcid : lookup cid N = some (Node.leaf e)) :
    ∀ (comps : List Comp) (cur r : Nat), r ≠ cid → Comp.root ∉ comps →
      walkE N cur comps = some (some r) →
      walkE (eraseKey cid (mapSet pid (Node.branch (childErase name ch)) N)) cur comps
        = some (some r) := by
  intro comps
  set N' := eraseKey cid (mapSet pid (Node.branch (childErase name ch)) N) with hN'
  have hlook : ∀ k, lookup k N' = if k = cid then none
      else if k = pid then some (Node.branch (childErase name ch)) else lookup k N := by
    intro k
    rw [hN', lookup_eraseKey, lookup_mapSet]
    by_cases h1 : k = cid
    · simp [h1]
    · rw [if_neg h1, if_neg h1]
      by_cases h2 : k = pid
      · subst h2
        simp [hpid]
      · rw [if_neg h2, if_neg h2]
  induction comps with
  | nil =>
    intro cur r _ _ h
    injection h with h
    injection h with h
    subst h
    rfl
  | cons c rest ih =>
    intro cur r hr hroot h
    cases c with
    | root => exact absurd (List.mem_cons_self _ _) hroot
    | cur => cases h
    | parent => cases h
    | normal s =>
      have hroot' : Comp.root ∉ rest := fun hm => hroot (List.mem_cons_of_mem _ hm)
      simp only [walkE] at h ⊢
      cases hfc : TreeStorage.find_child N cur s with
      | none =>
        rw [hfc] at h
        simp at h
      | some c' =>
        rw [hfc] at h
        by_cases h1 : cur = cid
        · exfalso
          unfold TreeStorage.find_child at hfc
          rw [h1, hcid] at hfc
          cases hfc
        · by_cases h2 : cur = pid
          · subst h2
            unfold TreeStorage.find_child at hfc
            rw [hpid] at hfc
            replace hfc : childLookup s ch = some c' := hfc
            by_cases h3 : s = name
            · exfalso
              subst h3
              rw [hcl] at hfc
              injection hfc with hfc
              subst hfc
              cases rest with
              | nil =>
                injection h with h
                injection h with h
                exact hr h.symm
              | cons d rest' =>
                cases d with
                | root => exact hroot' (List.mem_cons_self _ _)
                | cur => simp [walkE] at h
                | parent => simp [walkE] at h
                | normal s' =>
                  simp only [walkE] at h
                  have hnone : TreeStorage.find_child N cid s' = none := by
                    unfold TreeStorage.find_child
                    rw [hcid]
                  rw [hnone] at h
                  simp at h
            · have hfc' : TreeStorage.find_child N' cur s = some c' := by
                unfold TreeStorage.find_child
                rw [hlook, if_neg h1, if_pos rfl]
                show childLookup s (childErase name ch) = some c'
                rw [childLookup_childErase, if_neg h3]
                exact hfc
              rw [hfc']
              exact ih c' r hr hroot' h
          · have hfc' : TreeStorage.find_child N' cur s = some c' := by
              unfold TreeStorage.find_child
              rw [hlook, if_neg h1, if_neg h2]
              unfold TreeStorage.find_child at hfc
              exact hfc
            rw [hfc']
            exact ih c' r hr hroot' h

/-- `walkE_leaf_remove_core` lifted to whole paths (leading `RootDir` allowed). -/
theorem walkE_leaf_remove_stable {N : NodeMap} {pid cid : Nat} {name : String}
    {ch : List (String × Nat)} {e : OrganizeFSEntry} {p : Fpath} {r : Nat}
    (hpid : lookup pid N = some (Node.branch ch))
    (hcl : childLookup name ch = some cid)
    (hcid : lookup cid N = some (Node.leaf e)) (hr : r ≠ cid)
    (hw : walkE N 0 p.components = some (some r)) :
    walkE (eraseKey cid (mapSet pid (Node.branch (childErase name ch)) N)) 0 p.components
      = some (some r) := by
  have hclean := components_tail_clean p
  cases hcm : p.components with
  | nil =>
    rw [hcm] at hw
    injection hw with hw
    injection hw with hw
    subst hw
    rfl
  | cons c rest =>
    have hroot' : Comp.root ∉ rest := by
      intro hm
      exact (hclean Comp.root (by rw [hcm]; simpa using hm)).1 rfl
    rw [hcm] at hw
    cases c with
    | root =>
      show walkE _ 0 (Comp.root :: rest) = _
      exact walkE_leaf_remove_core hpid hcl hcid rest 0 r hr hroot' hw
    | cur => cases hw
    | parent => cases hw
    | normal s =>
      exact walkE_leaf_remove_core hpid hcl hcid (Comp.normal s :: rest) 0 r hr
        (by
          intro hm
          rcases List.mem_cons.mp hm with hm | hm
          · cases hm
          · exact hroot' hm) hw

/-- Decompose a successful file lookup of `parent/name` into the parent walk, the
parent branch, and the final child binding. -/
theorem find_file_decompose {s : Store} {parent : Fpath} {name : String} {i : Nat}
    (hpc : (parent.push name).components = parent.components ++ [Comp.normal name])
    (hfind : TreeStorage.find s (parent.push name) = some (some i)) :
    ∃ P ch, walkE s.nodes 0 parent.components = some (some P) ∧
      lookup P s.nodes = some (Node.branch ch) ∧ childLookup name ch = some i := by
  unfold TreeStorage.find at hfind
  rw [hpc, walkE_append] at hfind
  cases hw : walkE s.nodes 0 parent.components with
  | none =>
    rw [hw] at hfind
    cases hfind
  | some w =>
    rw [hw] at hfind
    cases w with
    | none => simp at hfind
    | some P =>
      simp only [walkE] at hfind
      cases hfc : TreeStorage.find_child s.nodes P name with
      | none =>
        rw [hfc] at hfind
        simp at hfind
      | some c =>
        rw [hfc] at hfind
        injection hfind with hfind
        injection hfind with hfind
        subst hfind
        unfold TreeStorage.find_child at hfc
        cases hP : lookup P s.nodes with
        | none =>
          rw [hP] at hfc
          cases hfc
        | some nd =>
          rw [hP] at hfc
          cases nd with
          | leaf e => cases hfc
          | branch ch => exact ⟨P, ch, rfl, hP, hfc⟩

/-- C8 counterexample: a parent path containing `..` makes `unlink` panic
(`unreachable!()` in the store walk, modelled `none`) instead of returning the
claimed `ENOENT` for an unresolvable `parent/name`. -/
theorem C8_counterexample :
    OrganizeFS.unlink (TreeStorage.new ⟨true, [""]⟩) hostOk ⟨true, [".."]⟩ "x" = none := by
  rfl

/-- C8 (amended): the unlink contract, for a plain single-segment `name`.  If
`parent/name` does not resolve to a file node (unresolved, or resolved to a
directory or dangling identifier) the result is `ENOENT` with the store unchanged;
if it is a file and the host unlink fails, the host errno (`ENOENT` when absent) is
returned with the store unchanged; if the host unlink succeeds, the result is `Ok`
and the entry is gone from a subsequent `readdir` of `parent`.  (A `..` or leading
`.` component in `parent` panics instead — see the counterexample.) -/
theorem C8_unlink_contract (s : Store) (host : Fpath → Except (Option Int) Unit)
    (parent : Fpath) (name : String)
    (hof : Fpath.ofString name = ⟨false, [name]⟩) (hval : ValidName name) :
    (TreeStorage.find s (parent.push name) = some none →
      OrganizeFS.unlink s host parent name = some (Except.error ENOENT, s)) ∧
    (∀ i, TreeStorage.find s (parent.push name) = some (some i) →
      TreeStorage.is_file s.nodes i = false →
      OrganizeFS.unlink s host parent name = some (Except.error ENOENT, s)) ∧
    (∀ i e eo, TreeStorage.find s (parent.push name) = some (some i) →
      lookup i s.nodes = some (Node.leaf e) → host e.host_path = Except.error eo →
      OrganizeFS.unlink s host parent name = some (Except.error (eo.getD ENOENT), s)) ∧
    (∀ i e, TreeStorage.find s (parent.push name) = some (some i) →
      lookup i s.nodes = some (Node.leaf e) → host e.host_path = Except.ok () →
      ∃ s' l, OrganizeFS.unlink s host parent name = some (Except.ok (), s') ∧
        OrganizeFS.readdir s' parent = some (Except.ok l) ∧
        ∀ ft : FileType, (name, ft) ∉ l) := by
  have hpc := push_components parent hof hval
  refine ⟨?_, ?_, ?_, ?_⟩
  · intro hfind
    unfold OrganizeFS.unlink
    rw [hfind]
  · intro i hfind hnotfile
    unfold OrganizeFS.unlink
    simp only [hfind]
    unfold TreeStorage.is_file at hnotfile
    cases hl : lookup i s.nodes with
    | none => rfl
    | some nd =>
      cases nd with
      | branch ch => rfl
      | leaf e =>
        rw [hl] at hnotfile
        simp at hnotfile
  · intro i e eo hfind hleaf hhost
    unfold OrganizeFS.unlink
    simp only [hfind, hleaf, hhost]
  · intro i e hfind hleaf hhost
    obtain ⟨P, ch, hw, hP, hcl⟩ := find_file_decompose hpc hfind
    have hiP : i ≠ P := by
      intro h
      rw [h, hP] at hleaf
      cases hleaf
    have hPi : P ≠ i := fun h => hiP h.symm
    have hrm : TreeStorage.remove s (parent.push name) =
        some (true,
          ⟨s.pattern, eraseKey i (mapSet P (Node.branch (childErase name ch)) s.nodes)⟩) := by
      unfold TreeStorage.remove
      rw [hpc, splitLast_append]
      simp only [hw, hP, hcl]
      rw [lookup_mapSet, if_neg hiP, hleaf]
      rfl
    have hunlink : OrganizeFS.unlink s host parent name =
        some (Except.ok (),
          ⟨s.pattern, eraseKey i (mapSet P (Node.branch (childErase name ch)) s.nodes)⟩) := by
      unfold OrganizeFS.unlink
      simp only [hfind, hleaf, hhost, hrm]
      rfl
    have hwP' : walkE (eraseKey i (mapSet P (Node.branch (childErase name ch)) s.nodes)) 0
        parent.components = some (some P) :=
      walkE_leaf_remove_stable hP hcl hleaf hPi hw
    have hPl : lookup P (eraseKey i (mapSet P (Node.branch (childErase name ch)) s.nodes)) =
        some (Node.branch (childErase name ch)) := by
      rw [lookup_eraseKey, if_neg hPi, lookup_mapSet, if_pos rfl, hP]
      rfl
    refine ⟨⟨s.pattern, eraseKey i (mapSet P (Node.branch (childErase name ch)) s.nodes)⟩,
      [(".", FileType.directory), ("..", FileType.directory)] ++
        (childErase name ch).filterMap fun (nc : String × Nat) =>
          match lookup nc.2 (eraseKey i (mapSet P (Node.branch (childErase name ch)) s.nodes)) with
          | some (Node.branch _) => some (nc.1, FileType.directory)
          | some (Node.leaf _) => some (nc.1, FileType.regularFile)
          | none => none,
      hunlink, ?_, ?_⟩
    · unfold OrganizeFS.readdir
      unfold TreeStorage.find
      simp only [hwP', hPl]
    · intro ft hmem
      rcases List.mem_append.mp hmem with hmem | hmem
      · rcases List.mem_cons.mp hmem with h | h
        · have : name = "." := congrArg Prod.fst h
          exact hval.2.1 this
        · rcases List.mem_singleton.mp h with h
          have : name = ".." := congrArg Prod.fst h
          exact hval.2.2 this
      · rcases List.mem_filterMap.mp hmem with ⟨nc, hnc, hf⟩
        have heq : nc.1 = name := by
          cases hl2 : lookup nc.2
              (eraseKey i (mapSet P (Node.branch (childErase name ch)) s.nodes)) with
          | none =>
            rw [hl2] at hf
            cases hf
          | some nd =>
            rw [hl2] at hf
            cases nd with
            | branch ch2 =>
              injection hf with hf
              exact congrArg Prod.fst hf
            | leaf e2 =>
              injection hf with hf
              exact congrArg Prod.fst hf
        exact mem_childErase_ne hnc heq

theorem C8_witness :
    ∃ s' l, OrganizeFS.unlink sC4a hostOk ⟨true, [""]⟩ "a" = some (Except.ok (), s') ∧
      OrganizeFS.readdir s' ⟨true, [""]⟩ = some (Except.ok l) ∧
      ∀ ft : FileType, ("a", ft) ∉ l :=
  (C8_unlink_contract sC4a hostOk ⟨true, [""]⟩ "a" (by decide) (by decide)).2.2.2 1 ea
    (by decide) (by decide) rfl

theorem wfindN_append (nodes : NodeMap) (l₁ l₂ : List String) : ∀ cur,
    wfindN nodes cur (l₁ ++ l₂) =
      (wfindN nodes cur l₁).bind fun c => wfindN nodes c l₂ := by
  induction l₁ with
  | nil => intro cur; rfl
  | cons n rest ih =>
    intro cur
    cases h : TreeStorage.find_child nodes cur n with
    | some c => simp [wfindN, h, ih]
    | none => simp [wfindN, h]

theorem grows_refl (n : NodeMap) : grows n n :=
  ⟨fun _ _ _ h => h, fun _ _ h => h⟩

theorem grows_trans {n₁ n₂ n₃ : NodeMap} (h₁ : grows n₁ n₂) (h₂ : grows n₂ n₃) :
    grows n₁ n₃ :=
  ⟨fun c m i h => h₂.1 c m i (h₁.1 c m i h), fun k e h => h₂.2 k e (h₁.2 k e h)⟩

theorem wfindN_mono {n n' : NodeMap} (hg : grows n n') :
    ∀ (l : List String) (cur k : Nat), wfindN n cur l = some k → wfindN n' cur l = some k := by
  intro l
  induction l with
  | nil => intro cur k h; exact h
  | cons m rest ih =>
    intro cur k h
    unfold wfindN at h ⊢
    cases hc : TreeStorage.find_child n cur m with
    | some c =>
      rw [hc] at h
      rw [hg.1 cur m c hc]
      exact ih c k h
    | none => rw [hc] at h; cases h

theorem walkE_toNames : ∀ (comps : List Comp) (ns : List String),
    toNamesNR comps = some ns → ∀ (nodes : NodeMap) (cur : Nat),
    walkE nodes cur comps = some (wfindN nodes cur ns) := by
  intro comps
  induction comps with
  | nil =>
    intro ns h nodes cur
    cases h
    rfl
  | cons c rest ih =>
    intro ns h nodes cur
    cases c with
    | root => cases h
    | cur => cases h
    | parent => cases h
    | normal s =>
      unfold toNamesNR at h
      cases ht : toNamesNR rest with
      | none => rw [ht] at h; cases h
      | some ns' =>
        rw [ht] at h
        cases h
        show (match TreeStorage.find_child nodes cur s with
          | some c => walkE nodes c rest
          | none => some none) = _
        cases hc : TreeStorage.find_child nodes cur s with
        | some c => simp [wfindN, hc, ih ns' ht]
        | none => simp [wfindN, hc]

theorem insertWalk_toNames : ∀ (comps : List Comp) (ns : List String),
    toNamesNR comps = some ns → ∀ (nodes : NodeMap) (cur : Nat),
    insertWalk nodes cur comps = winsertN nodes cur ns := by
  intro comps
  induction comps with
  | nil =>
    intro ns h nodes cur
    cases h
    rfl
  | cons c rest ih =>
    intro ns h nodes cur
    cases c with
    | root => cases h
    | cur => cases h
    | parent => cases h
    | normal s =>
      unfold toNamesNR at h
      cases ht : toNamesNR rest with
      | none => rw [ht] at h; cases h
      | some ns' =>
        rw [ht] at h
        cases h
        show (match TreeStorage.upsert nodes cur s (Node.branch []) with
          | some (c, nodes') => insertWalk nodes' c rest
          | none => none) = _
        cases hu : TreeStorage.upsert nodes cur s (Node.branch []) with
        | some r => simp [winsertN, hu, ih ns' ht]
        | none => simp [winsertN, hu]

theorem toNames_of_insertWalk_some : ∀ (comps : List Comp), Comp.root ∉ comps →
    ∀ (nodes : NodeMap) (cur : Nat) (r : Nat × NodeMap),
    insertWalk nodes cur comps = some r → ∃ ns, toNamesNR comps = some ns := by
  intro comps
  induction comps with
  | nil => exact fun _ _ _ _ _ => ⟨[], rfl⟩
  | cons c rest ih =>
    intro hroot nodes cur r h
    cases c with
    | root => exact absurd (List.mem_cons_self _ _) hroot
    | cur => cases h
    | parent => cases h
    | normal s =>
      unfold insertWalk at h
      cases hu : TreeStorage.upsert nodes cur s (Node.branch []) with
      | none => rw [hu] at h; cases h
      | some p =>
        rw [hu] at h
        obtain ⟨ns', hns'⟩ :=
          ih (fun hm => hroot (List.mem_cons_of_mem _ hm)) p.2 p.1 r h
        exact ⟨s :: ns', by simp [toNamesNR, hns']⟩

theorem walkE_stripRoot (nodes : NodeMap) (comps : List Comp) :
    walkE nodes 0 comps = walkE nodes 0 (stripRoot comps) := by
  cases comps with
  | nil => rfl
  | cons c rest => cases c <;> rfl

theorem insertWalk_stripRoot (nodes : NodeMap) (comps : List Comp) :
    insertWalk nodes 0 comps = insertWalk nodes 0 (stripRoot comps) := by
  cases comps with
  | nil => rfl
  | cons c rest => cases c <;> rfl

theorem root_not_mem_stripRoot {comps : List Comp}
    (hclean : ∀ c ∈ comps.drop 1, c ≠ Comp.root) : Comp.root ∉ stripRoot comps := by
  cases comps with
  | nil => intro h; cases h
  | cons c rest =>
    cases c with
    | root => exact fun hm => hclean _ hm rfl
    | cur =>
      intro hm
      rcases List.mem_cons.mp hm with h | h
      · cases h
      · exact hclean _ h rfl
    | parent =>
      intro hm
      rcases List.mem_cons.mp hm with h | h
      · cases h
      · exact hclean _ h rfl
    | normal s =>
      intro hm
      rcases List.mem_cons.mp hm with h | h
      · cases h
      · exact hclean _ h rfl

theorem lookup_isSome_mem (k : Nat) : ∀ (m : NodeMap),
    (lookup k m).isSome ↔ k ∈ m.map Prod.fst := by
  intro m
  induction m with
  | nil => simp [lookup]
  | cons kv rest ih =>
    obtain ⟨k', v⟩ := kv
    by_cases h : k' = k
    · subst h
      simp [lookup]
    · simp [lookup, h, Ne.symm h, ih]

theorem compact_lookup {m : NodeMap} (hc : compact m) (k : Nat) :
    (lookup k m).isSome ↔ k < m.length := by
  rw [lookup_isSome_mem, compact] at *
  rw [hc]
  exact List.mem_range

theorem compact_lookup_none {m : NodeMap} (hc : compact m) {k : Nat}
    (h : m.length ≤ k) : lookup k m = none := by
  cases hl : lookup k m with
  | none => rfl
  | some v =>
    have := (compact_lookup hc k).mp (by simp [hl])
    omega

theorem mapSet_keys (k : Nat) (v : Node) : ∀ (m : NodeMap),
    (mapSet k v m).map Prod.fst = m.map Prod.fst := by
  intro m
  induction m with
  | nil => rfl
  | cons kv rest ih =>
    obtain ⟨k', v'⟩ := kv
    by_cases h : k' = k
    · subst h
      simp [mapSet, ih]
    · simp [mapSet, h, ih]

theorem mapSet_length (k : Nat) (v : Node) (m : NodeMap) :
    (mapSet k v m).length = m.length := by
  have := mapSet_keys k v m
  have h1 := congrArg List.length this
  simpa using h1

theorem compact_mapSet {m : NodeMap} (hc : compact m) (k : Nat) (v : Node) :
    compact (mapSet k v m) := by
  unfold compact at *
  rw [mapSet_keys, mapSet_length]
  exact hc

theorem compact_extend {m : NodeMap} (hc : compact m) (v : Node) :
    compact (m ++ [(m.length, v)]) := by
  unfold compact at *
  simp [List.range_succ, hc]

theorem compact_nodupKeys {m : NodeMap} (hc : compact m) :
    (m.map Prod.fst).Nodup := by
  rw [hc]
  exact List.nodup_range _

theorem segPre_refl : ∀ (p : List String), segPre p p = true := by
  intro p
  induction p with
  | nil => rfl
  | cons a as ih => simp [segPre, ih]

theorem segPre_append : ∀ (p r : List String), segPre p (p ++ r) = true := by
  intro p r
  induction p with
  | nil => rfl
  | cons a as ih => simp [segPre, ih]

theorem segPre_iff : ∀ (p q : List String), segPre p q = true ↔ ∃ r, p ++ r = q := by
  intro p
  induction p with
  | nil => intro q; simp [segPre]
  | cons a as ih =>
    intro q
    cases q with
    | nil =>
      simp [segPre]
    | cons b bs =>
      simp only [segPre, Bool.and_eq_true, decide_eq_true_eq, ih]
      constructor
      · rintro ⟨rfl, r, rfl⟩
        exact ⟨r, rfl⟩
      · rintro ⟨r, hr⟩
        rw [List.cons_append] at hr
        cases hr
        exact ⟨rfl, r, rfl⟩

theorem segPre_trans {p q r : List String} (h₁ : segPre p q = true)
    (h₂ : segPre q r = true) : segPre p r = true := by
  rw [segPre_iff] at *
  obtain ⟨x, rfl⟩ := h₁
  obtain ⟨y, rfl⟩ := h₂
  exact ⟨x ++ y, by simp⟩

theorem mapSet_absent (k : Nat) (v : Node) : ∀ (m : NodeMap),
    lookup k m = none → mapSet k v m = m := by
  intro m
  induction m with
  | nil => intro _; rfl
  | cons kv rest ih =>
    obtain ⟨k', v'⟩ := kv
    intro h
    unfold lookup at h
    by_cases h1 : k' = k
    · rw [if_pos h1] at h; cases h
    · rw [if_neg h1] at h
      simp [mapSet, h1, ih h]

theorem lookup_none_not_mem {k : Nat} {m : NodeMap} (h : k ∉ m.map Prod.fst) :
    lookup k m = none := by
  cases hl : lookup k m with
  | none => rfl
  | some v => exact absurd ((lookup_isSome_mem k m).mp (by simp [hl])) h

theorem leafCount_mapSet_branch {m : NodeMap} (hnd : (m.map Prod.fst).Nodup)
    {p : Nat} {ch ch' : List (String × Nat)}
    (hp : lookup p m = some (Node.branch ch)) :
    leafCount (mapSet p (Node.branch ch') m) = leafCount m := by
  induction m with
  | nil => cases hp
  | cons kv rest ih =>
    obtain ⟨k, v⟩ := kv
    simp only [List.map_cons, List.nodup_cons] at hnd
    unfold lookup at hp
    by_cases h1 : k = p
    · subst h1
      rw [if_pos rfl] at hp
      cases hp
      have habs : lookup k rest = none := lookup_none_not_mem hnd.1
      simp [mapSet, leafCount, mapSet_absent _ _ _ habs]
    · rw [if_neg h1] at hp
      have := ih hnd.2 hp
      unfold leafCount at this ⊢
      cases v with
      | branch chv => simp only [mapSet, if_neg h1]; simp [List.filter, this]
      | leaf e => simp only [mapSet, if_neg h1]; simp [List.filter, this]

theorem leafCount_append (m : NodeMap) (k : Nat) (v : Node) :
    leafCount (m ++ [(k, v)]) =
      leafCount m + (match v with | Node.leaf _ => 1 | _ => 0) := by
  unfold leafCount
  rw [List.filter_append]
  cases v with
  | branch ch => simp [List.filter]
  | leaf e => simp [List.filter]

theorem upsert_existing {nodes : NodeMap} {cur : Nat} {s : String} (nd : Node)
    {children : List (String × Nat)} {j : Nat}
    (hcur : lookup cur nodes = some (Node.branch children))
    (hj : childLookup s children = some j) :
    TreeStorage.upsert nodes cur s nd = some (j, nodes) := by
  unfold TreeStorage.upsert
  simp only [hcur, hj]

theorem upsert_fresh {nodes : NodeMap} {cur : Nat} {s : String} (nd : Node)
    {children : List (String × Nat)}
    (hcur : lookup cur nodes = some (Node.branch children))
    (hn : childLookup s children = none) :
    TreeStorage.upsert nodes cur s nd =
      some (nodes.length, freshUpsert nodes cur s nd children) := by
  unfold TreeStorage.upsert freshUpsert
  simp only [hcur, hn]

theorem lookup_freshUpsert {nodes : NodeMap} {cur : Nat}
    {children : List (String × Nat)}
    (hcur : lookup cur nodes = some (Node.branch children))
    (s : String) (nd : Node) (k : Nat) :
    lookup k (freshUpsert nodes cur s nd children) =
      if k = nodes.length then some nd
      else if k = cur then some (Node.branch (childInsert s nodes.length children))
      else lookup k nodes := by
  unfold freshUpsert
  rw [lookup_mapInsert, lookup_mapSet]
  by_cases h1 : k = nodes.length
  · simp [h1]
  · rw [if_neg h1, if_neg h1]
    by_cases h2 : k = cur
    · subst h2
      simp [hcur]
    · simp [h2]

theorem length_freshUpsert {nodes : NodeMap} (hc : compact nodes) {cur : Nat}
    {children : List (String × Nat)}
    (hcur : lookup cur nodes = some (Node.branch children))
    (s : String) (nd : Node) :
    (freshUpsert nodes cur s nd children).length = nodes.length + 1 := by
  have hcl : cur < nodes.length := (compact_lookup hc cur).mp (by simp [hcur])
  have h0 : lookup nodes.length
      (mapSet cur (Node.branch (childInsert s nodes.length children)) nodes) = none := by
    rw [lookup_mapSet, if_neg (by omega)]
    exact compact_lookup_none hc (le_refl _)
  unfold freshUpsert mapInsert
  rw [h0]
  simp [mapSet_length]

theorem compact_freshUpsert {nodes : NodeMap} (hc : compact nodes) {cur : Nat}
    {children : List (String × Nat)}
    (hcur : lookup cur nodes = some (Node.branch children))
    (s : String) (nd : Node) :
    compact (freshUpsert nodes cur s nd children) := by
  have hcl : cur < nodes.length := (compact_lookup hc cur).mp (by simp [hcur])
  have h0 : lookup nodes.length
      (mapSet cur (Node.branch (childInsert s nodes.length children)) nodes) = none := by
    rw [lookup_mapSet, if_neg (by omega)]
    exact compact_lookup_none hc (le_refl _)
  unfold freshUpsert mapInsert
  rw [h0]
  simp only [Option.isSome_none, Bool.false_eq_true, if_false]
  have hres := compact_extend (compact_mapSet hc cur
    (Node.branch (childInsert s nodes.length children))) nd
  rwa [mapSet_length] at hres

theorem grows_freshUpsert {nodes : NodeMap} (hc : compact nodes) {cur : Nat}
    {children : List (String × Nat)}
    (hcur : lookup cur nodes = some (Node.branch children))
    {s : String} (hfresh : childLookup s children = none) (nd : Node) :
    grows nodes (freshUpsert nodes cur s nd children) := by
  constructor
  · intro c m i h
    unfold TreeStorage.find_child at h ⊢
    cases hcl : lookup c nodes with
    | none => rw [hcl] at h; cases h
    | some ndc =>
      rw [hcl] at h
      cases ndc with
      | leaf e => cases h
      | branch chc =>
        replace h : childLookup m chc = some i := h
        have hcL : c ≠ nodes.length := by
          intro he
          have := compact_lookup_none hc (le_of_eq he.symm)
          rw [this] at hcl
          cases hcl
        rw [lookup_freshUpsert hcur]
        rw [if_neg hcL]
        by_cases hcc : c = cur
        · subst hcc
          rw [if_pos rfl]
          rw [hcl] at hcur
          cases hcur
          show childLookup m (childInsert s nodes.length children) = some i
          rw [childLookup_childInsert]
          by_cases hms : m = s
          · subst hms
            rw [hfresh] at h
            cases h
          · rw [if_neg hms]
            exact h
        · rw [if_neg hcc, hcl]
          exact h
  · intro k e h
    have hkL : k ≠ nodes.length := by
      intro he
      have := compact_lookup_none hc (le_of_eq he.symm)
      rw [this] at h
      cases h
    have hkc : k ≠ cur := by
      intro he
      rw [he, hcur] at h
      cases h
    rw [lookup_freshUpsert hcur, if_neg hkL, if_neg hkc]
    exact h

theorem find_child_edgeTo (nodes : NodeMap) (a : Nat) (n : String) (i : Nat) :
    TreeStorage.find_child nodes a n = some i ↔ edgeTo nodes a n i := by
  unfold TreeStorage.find_child edgeTo
  cases h : lookup a nodes with
  | none => simp
  | some nd =>
    cases nd with
    | branch ch => simp
    | leaf e => simp

theorem edgeTo_freshUpsert {nodes : NodeMap} (hc : compact nodes) {cur : Nat}
    {children : List (String × Nat)}
    (hcur : lookup cur nodes = some (Node.branch children))
    {s : String} (hfresh : childLookup s children = none) {nd : Node}
    (hnd : nd = Node.branch [] ∨ ∃ e, nd = Node.leaf e)
    (a : Nat) (n : String) (i : Nat) :
    edgeTo (freshUpsert nodes cur s nd children) a n i ↔
      edgeTo nodes a n i ∨ (a = cur ∧ n = s ∧ i = nodes.length) := by
  constructor
  · rintro ⟨ch, hch, hcl⟩
    rw [lookup_freshUpsert hcur] at hch
    by_cases h1 : a = nodes.length
    · rw [if_pos h1] at hch
      rcases hnd with hb | ⟨e, he⟩
      · rw [hb] at hch
        cases hch
        simp [childLookup] at hcl
      · rw [he] at hch
        cases hch
    · rw [if_neg h1] at hch
      by_cases h2 : a = cur
      · subst h2
        rw [if_pos rfl] at hch
        cases hch
        rw [childLookup_childInsert] at hcl
        by_cases h3 : n = s
        · rw [if_pos h3] at hcl
          cases hcl
          exact Or.inr ⟨rfl, h3, rfl⟩
        · rw [if_neg h3] at hcl
          exact Or.inl ⟨children, hcur, hcl⟩
      · rw [if_neg h2] at hch
        exact Or.inl ⟨ch, hch, hcl⟩
  · rintro (⟨ch, hch, hcl⟩ | ⟨ha, hn, hi⟩)
    · have haL : a ≠ nodes.length := by
        intro he
        have := compact_lookup_none hc (le_of_eq he.symm)
        rw [this] at hch
        cases hch
      by_cases h2 : a = cur
      · subst h2
        rw [hcur] at hch
        cases hch
        refine ⟨childInsert s nodes.length children, ?_, ?_⟩
        · rw [lookup_freshUpsert hcur, if_neg haL, if_pos rfl]
        · rw [childLookup_childInsert]
          by_cases h3 : n = s
          · subst h3
            rw [hfresh] at hcl
            cases hcl
          · rw [if_neg h3]
            exact hcl
      · refine ⟨ch, ?_, hcl⟩
        rw [lookup_freshUpsert hcur, if_neg haL, if_neg h2]
        exact hch
    · rw [ha, hn, hi]
      have hcL : cur ≠ nodes.length := by
        have : cur < nodes.length := (compact_lookup hc cur).mp (by simp [hcur])
        omega
      refine ⟨childInsert s nodes.length children, ?_, ?_⟩
      · rw [lookup_freshUpsert hcur, if_neg hcL, if_pos rfl]
      · rw [childLookup_childInsert, if_pos rfl]

theorem treeWF_freshUpsert {nodes : NodeMap} {cur : Nat}
    {children : List (String × Nat)} {s : String} {nd : Node}
    (hwf : TreeWF nodes)
    (hcur : lookup cur nodes = some (Node.branch children))
    (hfresh : childLookup s children = none)
    (hnd : nd = Node.branch [] ∨ ∃ e, nd = Node.leaf e) :
    TreeWF (freshUpsert nodes cur s nd children) := by
  obtain ⟨hc, ⟨ch0, hroot⟩, hEdge, hUP⟩ := hwf
  have hcL : cur < nodes.length := (compact_lookup hc cur).mp (by simp [hcur])
  have hlen := length_freshUpsert hc hcur s nd
  refine ⟨compact_freshUpsert hc hcur s nd, ?_, ?_, ?_⟩
  · by_cases h0 : 0 = cur
    · refine ⟨childInsert s nodes.length children, ?_⟩
      rw [lookup_freshUpsert hcur, if_neg (by omega), if_pos h0]
    · refine ⟨ch0, ?_⟩
      rw [lookup_freshUpsert hcur, if_neg (by omega), if_neg h0]
      exact hroot
  · intro a n i he
    rw [edgeTo_freshUpsert hc hcur hfresh hnd] at he
    rw [hlen]
    rcases he with hold | ⟨rfl, rfl, rfl⟩
    · have := hEdge a n i hold
      omega
    · omega
  · intro a na b nb i hea heb
    rw [edgeTo_freshUpsert hc hcur hfresh hnd] at hea heb
    rcases hea with hold1 | ⟨ha1, hn1, hi1⟩
    · rcases heb with hold2 | ⟨hb2, hn2, hi2⟩
      · exact hUP a na b nb i hold1 hold2
      · exfalso
        have := hEdge a na i hold1
        omega
    · rcases heb with hold2 | ⟨hb2, hn2, hi2⟩
      · exfalso
        have := hEdge b nb i hold2
        omega
      · exact ⟨by rw [ha1, hb2], by rw [hn1, hn2]⟩

theorem wfindN_freshUpsert_back {nodes : NodeMap} {cur : Nat} {s : String} {nd : Node}
    {children : List (String × Nat)}
    (hc : compact nodes)
    (hcur : lookup cur nodes = some (Node.branch children))
    (hfresh : childLookup s children = none)
    (hnd : nd = Node.branch [] ∨ ∃ e, nd = Node.leaf e)
    (hedge : ∀ a n i, edgeTo nodes a n i → i < nodes.length) :
    ∀ (ns : List String) (st k : Nat), st ≠ nodes.length →
      wfindN (freshUpsert nodes cur s nd children) st ns = some k →
      wfindN nodes st ns = some k ∨
        (∃ ns₁, ns = ns₁ ++ [s] ∧ wfindN nodes st ns₁ = some cur ∧ k = nodes.length) := by
  intro ns
  induction ns with
  | nil => exact fun st k _ h => Or.inl h
  | cons n rest ih =>
    intro st k hst h
    unfold wfindN at h
    cases hfc : TreeStorage.find_child (freshUpsert nodes cur s nd children) st n with
    | none => rw [hfc] at h; cases h
    | some c =>
      rw [hfc] at h
      rw [find_child_edgeTo, edgeTo_freshUpsert hc hcur hfresh hnd] at hfc
      rcases hfc with hold | ⟨h1, h2, h3⟩
      · have hcl : c < nodes.length := hedge st n c hold
        rcases ih c k (by omega) h with hl | ⟨ns₁, rfl, hw, hk⟩
        · left
          unfold wfindN
          rw [(find_child_edgeTo nodes st n c).mpr hold]
          exact hl
        · right
          refine ⟨n :: ns₁, rfl, ?_, hk⟩
          unfold wfindN
          rw [(find_child_edgeTo nodes st n c).mpr hold]
          exact hw
      · subst h3
        right
        cases rest with
        | nil =>
          replace h : some nodes.length = some k := h
          cases h
          exact ⟨[], by simp [h2], by simp [h1, wfindN], rfl⟩
        | cons n' rest' =>
          exfalso
          unfold wfindN at h
          cases hfc2 : TreeStorage.find_child (freshUpsert nodes cur s nd children)
              nodes.length n' with
          | none => rw [hfc2] at h; cases h
          | some c2 =>
            unfold TreeStorage.find_child at hfc2
            rw [lookup_freshUpsert hcur, if_pos rfl] at hfc2
            rcases hnd with hb | ⟨e, he⟩
            · rw [hb] at hfc2
              simp [childLookup] at hfc2
            · rw [he] at hfc2
              cases hfc2

theorem wfindN_concat_edge {nodes : NodeMap} {ns : List String} {b : String}
    {st v : Nat} (h : wfindN nodes st (ns ++ [b]) = some v) :
    ∃ p, wfindN nodes st ns = some p ∧ edgeTo nodes p b v := by
  rw [wfindN_append] at h
  cases hp : wfindN nodes st ns with
  | none => rw [hp] at h; cases h
  | some p =>
    rw [hp] at h
    replace h : wfindN nodes p [b] = some v := h
    unfold wfindN at h
    cases hfc : TreeStorage.find_child nodes p b with
    | none => rw [hfc] at h; cases h
    | some c =>
      rw [hfc] at h
      replace h : some c = some v := h
      cases h
      exact ⟨p, rfl, (find_child_edgeTo nodes p b v).mp hfc⟩

theorem route_unique {nodes : NodeMap} (hwf : TreeWF nodes) :
    ∀ (v : Nat) (ns ns' : List String), wfindN nodes 0 ns = some v →
      wfindN nodes 0 ns' = some v → ns = ns' := by
  obtain ⟨hc, hroot, hEdge, hUP⟩ := hwf
  intro v
  induction v using Nat.strong_induction_on with
  | _ v ih =>
    intro ns ns' h h'
    rcases List.eq_nil_or_concat ns with rfl | ⟨L, b, rfl⟩
    · replace h : some 0 = some v := h
      cases h
      rcases List.eq_nil_or_concat ns' with rfl | ⟨L', b', rfl⟩
      · rfl
      · exfalso
        simp only [List.concat_eq_append] at h'
        obtain ⟨p', hp', he'⟩ := wfindN_concat_edge h'
        have := hEdge p' b' 0 he'
        omega
    · simp only [List.concat_eq_append] at h ⊢
      rcases List.eq_nil_or_concat ns' with rfl | ⟨L', b', rfl⟩
      · exfalso
        replace h' : some 0 = some v := h'
        cases h'
        obtain ⟨p, hp, he⟩ := wfindN_concat_edge h
        have := hEdge p b 0 he
        omega
      · simp only [List.concat_eq_append] at h' ⊢
        obtain ⟨p, hp, he⟩ := wfindN_concat_edge h
        obtain ⟨p', hp', he'⟩ := wfindN_concat_edge h'
        obtain ⟨hpp, hbb⟩ := hUP p b p' b' v he he'
        have hLL : L = L' := ih p (hEdge p b v he).1 L L' hp (hpp ▸ hp')
        rw [hLL, hbb]

theorem wfindN_snoc {nodes : NodeMap} {ρ : List String} {cur : Nat} {m : String}
    {c : Nat} (hρ : wfindN nodes 0 ρ = some cur)
    (hfc : TreeStorage.find_child nodes cur m = some c) :
    wfindN nodes 0 (ρ ++ [m]) = some c := by
  rw [wfindN_append, hρ]
  show wfindN nodes cur [m] = some c
  unfold wfindN
  rw [hfc]
  rfl

theorem find_child_freshUpsert {nodes : NodeMap} (hc : compact nodes) {cur : Nat}
    {children : List (String × Nat)}
    (hcur : lookup cur nodes = some (Node.branch children))
    (s : String) (nd : Node) :
    TreeStorage.find_child (freshUpsert nodes cur s nd children) cur s =
      some nodes.length := by
  have hcL : cur ≠ nodes.length := by
    have : cur < nodes.length := (compact_lookup hc cur).mp (by simp [hcur])
    omega
  unfold TreeStorage.find_child
  rw [lookup_freshUpsert hcur, if_neg hcL, if_pos rfl]
  show childLookup s (childInsert s nodes.length children) = some nodes.length
  rw [childLookup_childInsert, if_pos rfl]

theorem winsertN_back : ∀ (names : List String) (nodes : NodeMap) (cur P : Nat)
    (nodes₁ : NodeMap) (ρ : List String),
    TreeWF nodes → wfindN nodes 0 ρ = some cur →
    winsertN nodes cur names = some (P, nodes₁) →
    ∀ ns k, wfindN nodes₁ 0 ns = some k →
      wfindN nodes 0 ns = some k ∨ segPre ns (ρ ++ names) = true := by
  intro names
  induction names with
  | nil =>
    intro nodes cur P nodes₁ ρ hwf hρ h ns k hns
    simp only [winsertN, Option.some.injEq, Prod.mk.injEq] at h
    obtain ⟨rfl, rfl⟩ := h
    exact Or.inl hns
  | cons m rest ih =>
    intro nodes cur P nodes₁ ρ hwf hρ h ns k hns
    unfold winsertN at h
    cases hcl : lookup cur nodes with
    | none =>
      rw [show TreeStorage.upsert nodes cur m (Node.branch []) = none by
        unfold TreeStorage.upsert; rw [hcl]] at h
      cases h
    | some ndc =>
      cases ndc with
      | leaf e =>
        rw [show TreeStorage.upsert nodes cur m (Node.branch []) = none by
          unfold TreeStorage.upsert; rw [hcl]] at h
        cases h
      | branch children =>
        cases hch : childLookup m children with
        | some c =>
          rw [upsert_existing (Node.branch []) hcl hch] at h
          have hρ' : wfindN nodes 0 (ρ ++ [m]) = some c :=
            wfindN_snoc hρ (by unfold TreeStorage.find_child; rw [hcl]; exact hch)
          rcases ih nodes c P nodes₁ (ρ ++ [m]) hwf hρ' h ns k hns with hl | hr
          · exact Or.inl hl
          · right
            rw [List.append_assoc] at hr
            exact hr
        | none =>
          rw [upsert_fresh (Node.branch []) hcl hch] at h
          have hc : compact nodes := hwf.1
          have hwfX := treeWF_freshUpsert hwf hcl hch (Or.inl rfl)
          have hgX := grows_freshUpsert hc hcl hch (Node.branch [])
          have hrX : wfindN (freshUpsert nodes cur m (Node.branch []) children) 0
              (ρ ++ [m]) = some nodes.length :=
            wfindN_snoc (wfindN_mono hgX ρ 0 cur hρ)
              (find_child_freshUpsert hc hcl m (Node.branch []))
          replace h : winsertN (freshUpsert nodes cur m (Node.branch []) children)
              nodes.length rest = some (P, nodes₁) := h
          rcases ih (freshUpsert nodes cur m (Node.branch []) children) nodes.length
              P nodes₁ (ρ ++ [m]) hwfX hrX h ns k hns with hl | hr
          · have h0L : (0 : Nat) ≠ nodes.length := by
              obtain ⟨ch0, hroot⟩ := hwf.2.1
              have : 0 < nodes.length := (compact_lookup hc 0).mp (by simp [hroot])
              omega
            rcases wfindN_freshUpsert_back hc hcl hch (Or.inl rfl)
                (fun a n i he => (hwf.2.2.1 a n i he).2) ns 0 k h0L hl with
              hold | ⟨ns₁, rfl, hw1, hk⟩
            · exact Or.inl hold
            · right
              have hr : ns₁ = ρ := route_unique hwf cur ns₁ ρ hw1 hρ
              rw [hr]
              rw [show ρ ++ m :: rest = (ρ ++ [m]) ++ rest by
                rw [List.append_assoc]; rfl]
              exact segPre_append (ρ ++ [m]) rest
          · right
            rw [List.append_assoc] at hr
            exact hr

theorem leafCount_freshUpsert {nodes : NodeMap} (hc : compact nodes) {cur : Nat}
    {children : List (String × Nat)}
    (hcur : lookup cur nodes = some (Node.branch children)) (s : String) (nd : Node) :
    leafCount (freshUpsert nodes cur s nd children) =
      leafCount nodes + (match nd with | Node.leaf _ => 1 | _ => 0) := by
  have hcL : cur < nodes.length := (compact_lookup hc cur).mp (by simp [hcur])
  have h0 : lookup nodes.length
      (mapSet cur (Node.branch (childInsert s nodes.length children)) nodes) = none := by
    rw [lookup_mapSet, if_neg (by omega)]
    exact compact_lookup_none hc (le_refl _)
  unfold freshUpsert mapInsert
  rw [h0]
  simp only [Option.isSome_none, Bool.false_eq_true, if_false]
  rw [leafCount_append, leafCount_mapSet_branch (compact_nodupKeys hc) hcur]

theorem winsertN_spec : ∀ (names : List String) (nodes : NodeMap) (cur P : Nat)
    (nodes₁ : NodeMap), TreeWF nodes →
    winsertN nodes cur names = some (P, nodes₁) →
    TreeWF nodes₁ ∧ grows nodes nodes₁ ∧ leafCount nodes₁ = leafCount nodes ∧
      wfindN nodes₁ cur names = some P ∧
      ((nodes₁ = nodes ∧ wfindN nodes cur names = some P) ∨
        (nodes.length ≤ P ∧ lookup P nodes₁ = some (Node.branch []))) := by
  intro names
  induction names with
  | nil =>
    intro nodes cur P nodes₁ hwf h
    simp only [winsertN, Option.some.injEq, Prod.mk.injEq] at h
    obtain ⟨rfl, rfl⟩ := h
    exact ⟨hwf, grows_refl nodes, rfl, rfl, Or.inl ⟨rfl, rfl⟩⟩
  | cons m rest ih =>
    intro nodes cur P nodes₁ hwf h
    unfold winsertN at h
    cases hcl : lookup cur nodes with
    | none =>
      rw [show TreeStorage.upsert nodes cur m (Node.branch []) = none by
        unfold TreeStorage.upsert; rw [hcl]] at h
      cases h
    | some ndc =>
      cases ndc with
      | leaf e =>
        rw [show TreeStorage.upsert nodes cur m (Node.branch []) = none by
          unfold TreeStorage.upsert; rw [hcl]] at h
        cases h
      | branch children =>
        cases hch : childLookup m children with
        | some c =>
          rw [upsert_existing (Node.branch []) hcl hch] at h
          replace h : winsertN nodes c rest = some (P, nodes₁) := h
          obtain ⟨hwfI, hgI, hlcI, hwPI, hdI⟩ := ih nodes c P nodes₁ hwf h
          have hfc : TreeStorage.find_child nodes cur m = some c := by
            unfold TreeStorage.find_child
            rw [hcl]
            exact hch
          refine ⟨hwfI, hgI, hlcI, ?_, ?_⟩
          · unfold wfindN
            rw [hgI.1 cur m c hfc]
            exact hwPI
          · rcases hdI with ⟨heq, hwp⟩ | ⟨hle, hlk⟩
            · left
              refine ⟨heq, ?_⟩
              unfold wfindN
              rw [hfc]
              exact hwp
            · exact Or.inr ⟨hle, hlk⟩
        | none =>
          rw [upsert_fresh (Node.branch []) hcl hch] at h
          replace h : winsertN (freshUpsert nodes cur m (Node.branch []) children)
              nodes.length rest = some (P, nodes₁) := h
          have hc : compact nodes := hwf.1
          have hwfX := treeWF_freshUpsert hwf hcl hch (Or.inl rfl)
          have hgX := grows_freshUpsert hc hcl hch (Node.branch [])
          obtain ⟨hwfI, hgI, hlcI, hwPI, hdI⟩ :=
            ih (freshUpsert nodes cur m (Node.branch []) children)
              nodes.length P nodes₁ hwfX h
          have hlen := length_freshUpsert hc hcl m (Node.branch [])
          refine ⟨hwfI, grows_trans hgX hgI, ?_, ?_, ?_⟩
          · rw [hlcI, leafCount_freshUpsert hc hcl m (Node.branch [])]
            rfl
          · unfold wfindN
            rw [hgI.1 cur m nodes.length (find_child_freshUpsert hc hcl m (Node.branch []))]
            exact hwPI
          · rcases hdI with ⟨heq, hwp⟩ | ⟨hle, hlk⟩
            · cases rest with
              | nil =>
                replace hwp : some nodes.length = some P := hwp
                cases hwp
                right
                refine ⟨le_refl _, ?_⟩
                rw [heq, lookup_freshUpsert hcl, if_pos rfl]
              | cons n' rest' =>
                exfalso
                unfold wfindN at hwp
                cases hfc2 : TreeStorage.find_child
                    (freshUpsert nodes cur m (Node.branch []) children)
                    nodes.length n' with
                | none => rw [hfc2] at hwp; cases hwp
                | some c2 =>
                  unfold TreeStorage.find_child at hfc2
                  rw [lookup_freshUpsert hcl, if_pos rfl] at hfc2
                  simp [childLookup] at hfc2
            · right
              refine ⟨by omega, hlk⟩

theorem mem_drop_one_append {l : List Comp} {x c : Comp} (h : c ∈ l.drop 1) :
    c ∈ (l ++ [x]).drop 1 := by
  cases l with
  | nil => cases h
  | cons a t =>
    simp only [List.drop_one, List.tail_cons] at h
    simp only [List.cons_append, List.drop_one, List.tail_cons]
    exact List.mem_append_left _ h

theorem stripRoot_append_single {init : List Comp} {c : Comp} (hc : c ≠ Comp.root) :
    stripRoot (init ++ [c]) = stripRoot init ++ [c] := by
  cases init with
  | nil =>
    cases c with
    | root => exact absurd rfl hc
    | cur => rfl
    | parent => rfl
    | normal s => rfl
  | cons a t => cases a <;> rfl

theorem toNamesNR_append_single : ∀ {l : List Comp} {ns : List String} {x : String},
    toNamesNR l = some ns → toNamesNR (l ++ [Comp.normal x]) = some (ns ++ [x]) := by
  intro l
  induction l with
  | nil =>
    intro ns x h
    cases h
    rfl
  | cons c rest ih =>
    intro ns x h
    cases c with
    | root => cases h
    | cur => cases h
    | parent => cases h
    | normal s =>
      unfold toNamesNR at h
      cases ht : toNamesNR rest with
      | none => rw [ht] at h; cases h
      | some ns' =>
        rw [ht] at h
        cases h
        simp only [List.cons_append]
        unfold toNamesNR
        rw [ih ht]
        rfl

theorem segPre_length : ∀ {p q : List String}, segPre p q = true → p.length ≤ q.length := by
  intro p q h
  rw [segPre_iff] at h
  obtain ⟨r, rfl⟩ := h
  simp

theorem winsertN_leaf_back : ∀ (names : List String) (nodes : NodeMap) (cur P : Nat)
    (nodes₁ : NodeMap), compact nodes →
    winsertN nodes cur names = some (P, nodes₁) →
    ∀ k e', lookup k nodes₁ = some (Node.leaf e') →
      lookup k nodes = some (Node.leaf e') := by
  intro names
  induction names with
  | nil =>
    intro nodes cur P nodes₁ hc h
    simp only [winsertN, Option.some.injEq, Prod.mk.injEq] at h
    obtain ⟨rfl, rfl⟩ := h
    exact fun k e' hk => hk
  | cons m rest ih =>
    intro nodes cur P nodes₁ hc h k e' hk
    unfold winsertN at h
    cases hcl : lookup cur nodes with
    | none =>
      rw [show TreeStorage.upsert nodes cur m (Node.branch []) = none by
        unfold TreeStorage.upsert; rw [hcl]] at h
      cases h
    | some ndc =>
      cases ndc with
      | leaf e =>
        rw [show TreeStorage.upsert nodes cur m (Node.branch []) = none by
          unfold TreeStorage.upsert; rw [hcl]] at h
        cases h
      | branch children =>
        cases hch : childLookup m children with
        | some c =>
          rw [upsert_existing (Node.branch []) hcl hch] at h
          replace h : winsertN nodes c rest = some (P, nodes₁) := h
          exact ih nodes c P nodes₁ hc h k e' hk
        | none =>
          rw [upsert_fresh (Node.branch []) hcl hch] at h
          replace h : winsertN (freshUpsert nodes cur m (Node.branch []) children)
              nodes.length rest = some (P, nodes₁) := h
          have hk2 := ih _ nodes.length P nodes₁ (compact_freshUpsert hc hcl m _) h k e' hk
          rw [lookup_freshUpsert hcl] at hk2
          by_cases h1 : k = nodes.length
          · rw [if_pos h1] at hk2
            cases hk2
          · rw [if_neg h1] at hk2
            by_cases h2 : k = cur
            · rw [if_pos h2] at hk2
              cases hk2
            · rw [if_neg h2] at hk2
              exact hk2

theorem add_entry_inner_spec {nodes : NodeMap} {pat : Fpath} {e : OrganizeFSEntry}
    {nodes₂ : NodeMap} (hwf : TreeWF nodes)
    (h : TreeStorage.add_entry_inner nodes pat e = some nodes₂) :
    ∃ q, pathNames (e.local_path pat) = some q ∧ q ≠ [] ∧
      TreeWF nodes₂ ∧ grows nodes nodes₂ ∧
      ((nodes₂ = nodes ∧ ∃ j, wfindN nodes 0 q = some j) ∨
       (∃ i, wfindN nodes₂ 0 q = some i ∧
         lookup i nodes₂ = some (Node.leaf e) ∧
         leafCount nodes₂ = leafCount nodes + 1 ∧
         (∀ k e', lookup k nodes₂ = some (Node.leaf e') →
           lookup k nodes = some (Node.leaf e') ∨ (k = i ∧ e' = e)) ∧
         (∀ ns k, wfindN nodes₂ 0 ns = some k →
           wfindN nodes 0 ns = some k ∨ segPre ns q = true))) := by
  unfold TreeStorage.add_entry_inner at h
  cases hsl : splitLast (e.local_path pat).components with
  | none => rw [hsl] at h; cases h
  | some pr =>
    obtain ⟨init, last⟩ := pr
    rw [hsl] at h
    cases last with
    | root => cases h
    | cur => cases h
    | parent => cases h
    | normal name =>
      have hceq : (e.local_path pat).components = init ++ [Comp.normal name] :=
        splitLast_eq_append hsl
      have hclean := components_tail_clean (e.local_path pat)
      replace h : (match insertWalk nodes 0 init with
        | some (parent_id, nodes₁) =>
          match TreeStorage.upsert nodes₁ parent_id name (Node.leaf e) with
          | some (_, n2) => some n2
          | none => none
        | none => none) = some nodes₂ := h
      cases hiw : insertWalk nodes 0 init with
      | none => rw [hiw] at h; cases h
      | some pr1 =>
        obtain ⟨pid, nodes₁⟩ := pr1
        rw [hiw] at h
        replace h : (match TreeStorage.upsert nodes₁ pid name (Node.leaf e) with
          | some (_, n2) => some n2
          | none => none) = some nodes₂ := h
        have hcleanInit : ∀ c ∈ init.drop 1, c ≠ Comp.root := by
          intro c hc
          exact (hclean c (by rw [hceq]; exact mem_drop_one_append hc)).1
        have hrootfree : Comp.root ∉ stripRoot init := root_not_mem_stripRoot hcleanInit
        rw [insertWalk_stripRoot] at hiw
        obtain ⟨nsI, hnsI⟩ := toNames_of_insertWalk_some _ hrootfree _ _ _ hiw
        rw [insertWalk_toNames _ _ hnsI] at hiw
        obtain ⟨hwf1, hg1, hlc1, hwP1, hd1⟩ := winsertN_spec nsI nodes 0 pid nodes₁ hwf hiw
        have hq : pathNames (e.local_path pat) = some (nsI ++ [name]) := by
          unfold pathNames
          rw [hceq, stripRoot_append_single (by intro hh; cases hh),
            toNamesNR_append_single hnsI]
        refine ⟨nsI ++ [name], hq, by simp, ?_⟩
        cases hlk : lookup pid nodes₁ with
        | none =>
          rw [show TreeStorage.upsert nodes₁ pid name (Node.leaf e) = none by
            unfold TreeStorage.upsert; rw [hlk]] at h
          cases h
        | some ndp =>
          cases ndp with
          | leaf e' =>
            rw [show TreeStorage.upsert nodes₁ pid name (Node.leaf e) = none by
              unfold TreeStorage.upsert; rw [hlk]] at h
            cases h
          | branch chP =>
            cases hch : childLookup name chP with
            | some j =>
              rw [upsert_existing (Node.leaf e) hlk hch] at h
              replace h : some nodes₁ = some nodes₂ := h
              cases h
              rcases hd1 with ⟨heq, hwp⟩ | ⟨hle, hbr⟩
              · refine ⟨hwf1, hg1, Or.inl ⟨heq, j, ?_⟩⟩
                refine wfindN_snoc hwp ?_
                unfold TreeStorage.find_child
                rw [← heq, hlk]
                exact hch
              · exfalso
                rw [hlk] at hbr
                cases hbr
                simp [childLookup] at hch
            | none =>
              rw [upsert_fresh (Node.leaf e) hlk hch] at h
              replace h : some (freshUpsert nodes₁ pid name (Node.leaf e) chP) =
                some nodes₂ := h
              cases h
              have hc1 : compact nodes₁ := hwf1.1
              have hwf2 := treeWF_freshUpsert hwf1 hlk hch (Or.inr ⟨e, rfl⟩)
              have hg2 := grows_freshUpsert hc1 hlk hch (Node.leaf e)
              have h0L : (0 : Nat) ≠ nodes₁.length := by
                obtain ⟨ch0, hroot⟩ := hwf1.2.1
                have : 0 < nodes₁.length := (compact_lookup hc1 0).mp (by simp [hroot])
                omega
              refine ⟨hwf2, grows_trans hg1 hg2,
                Or.inr ⟨nodes₁.length, ?_, ?_, ?_, ?_, ?_⟩⟩
              · exact wfindN_snoc (wfindN_mono hg2 nsI 0 pid hwP1)
                  (find_child_freshUpsert hc1 hlk name (Node.leaf e))
              · rw [lookup_freshUpsert hlk, if_pos rfl]
              · rw [leafCount_freshUpsert hc1 hlk name (Node.leaf e), hlc1]
              · intro k e' hk
                rw [lookup_freshUpsert hlk] at hk
                by_cases h1 : k = nodes₁.length
                · rw [if_pos h1] at hk
                  cases hk
                  exact Or.inr ⟨h1, rfl⟩
                · rw [if_neg h1] at hk
                  by_cases h2 : k = pid
                  · rw [if_pos h2] at hk
                    cases hk
                  · rw [if_neg h2] at hk
                    exact Or.inl (winsertN_leaf_back nsI nodes 0 pid nodes₁ hwf.1
                      hiw k e' hk)
              · intro ns k hns
                rcases wfindN_freshUpsert_back hc1 hlk hch (Or.inr ⟨e, rfl⟩)
                    (fun a n i he => (hwf1.2.2.1 a n i he).2) ns 0 k h0L hns with
                  hb | ⟨nsx, rfl, hw1, hk⟩
                · rcases winsertN_back nsI nodes 0 pid nodes₁ [] hwf rfl hiw ns k hb with
                    hb2 | hpre
                  · exact Or.inl hb2
                  · right
                    replace hpre : segPre ns nsI = true := hpre
                    exact segPre_trans hpre (segPre_append nsI [name])
                · right
                  rw [route_unique hwf1 pid nsx nsI hw1 hwP1]
                  exact segPre_refl _

theorem treeWF_root0 : TreeWF [(0, Node.branch [])] := by
  refine ⟨rfl, ⟨[], rfl⟩, ?_, ?_⟩
  · rintro a n i ⟨ch, hch, hcl⟩
    unfold lookup at hch
    by_cases h : (0 : Nat) = a
    · rw [if_pos h] at hch
      cases hch
      cases hcl
    · rw [if_neg h] at hch
      cases hch
  · rintro a na b nb i ⟨ch, hch, hcl⟩ _
    unfold lookup at hch
    by_cases h : (0 : Nat) = a
    · rw [if_pos h] at hch
      cases hch
      cases hcl
    · rw [if_neg h] at hch
      cases hch

theorem treeWF_foldl : ∀ (es : List OrganizeFSEntry) (pat : Fpath)
    (nodes nodes' : NodeMap), TreeWF nodes →
    es.foldlM (fun acc e => TreeStorage.add_entry_inner acc pat e) nodes = some nodes' →
    TreeWF nodes' := by
  intro es
  induction es with
  | nil =>
    intro pat nodes nodes' hwf h
    cases h
    exact hwf
  | cons e rest ih =>
    intro pat nodes nodes' hwf h
    rw [List.foldlM_cons] at h
    cases ha : TreeStorage.add_entry_inner nodes pat e with
    | none => rw [ha] at h; cases h
    | some n₁ =>
      rw [ha] at h
      obtain ⟨q, _, _, hwf1, _, _⟩ := add_entry_inner_spec hwf ha
      exact ih pat n₁ nodes' hwf1 h

theorem noRemoveReach_treeWF {s : Store} (h : NoRemoveReach s) : TreeWF s.nodes := by
  induction h with
  | new p => exact treeWF_root0
  | add hs hadd ih =>
    rename_i s₀ s₁ e
    unfold TreeStorage.add_entry at hadd
    cases hi : TreeStorage.add_entry_inner s₀.nodes s₀.pattern e with
    | none => rw [hi] at hadd; cases hadd
    | some n2 =>
      rw [hi] at hadd
      replace hadd : some (⟨s₀.pattern, n2⟩ : Store) = some s₁ := hadd
      cases hadd
      obtain ⟨q, _, _, hwf2, _, _⟩ := add_entry_inner_spec ih hi
      exact hwf2
  | set hs hset ih =>
    rename_i s₀ s₁ q
    unfold TreeStorage.set_pattern at hset
    cases hf : (TreeStorage.leafEntries s₀.nodes).foldlM
        (fun nodes e => TreeStorage.add_entry_inner nodes (Fpath.ofString q).normalize e)
        [(0, Node.branch [])] with
    | none => rw [hf] at hset; cases hset
    | some nn =>
      rw [hf] at hset
      replace hset : some (⟨(Fpath.ofString q).normalize, nn⟩ : Store) = some s₁ := hset
      cases hset
      exact treeWF_foldl (TreeStorage.leafEntries s₀.nodes) (Fpath.ofString q).normalize
        [(0, Node.branch [])] nn treeWF_root0 hf

/-- C1 (amended): in a store reachable without removals, if the entry's virtual
path is not yet present, `add_entry` stores a fresh leaf there: `find` of the
local path returns a file handle whose `host_path` is the entry's host path.
(Re-inserting an already-present name silently keeps the old leaf, and after
removals identifier collisions can corrupt the arena, so both exclusions are
necessary.) -/
theorem C1_round_trip (s : Store) (e : OrganizeFSEntry) (s' : Store)
    (hreach : NoRemoveReach s)
    (habsent : TreeStorage.find s (e.local_path s.pattern) = some none)
    (hadd : TreeStorage.add_entry s e = some s') :
    ∃ i, TreeStorage.find s' (e.local_path s.pattern) = some (some i) ∧
      TreeStorage.is_file s'.nodes i = true ∧
      TreeStorage.host_path s'.nodes i = some e.host_path := by
  have hwf := noRemoveReach_treeWF hreach
  unfold TreeStorage.add_entry at hadd
  cases hi : TreeStorage.add_entry_inner s.nodes s.pattern e with
  | none => rw [hi] at hadd; cases hadd
  | some n2 =>
    rw [hi] at hadd
    replace hadd : some (⟨s.pattern, n2⟩ : Store) = some s' := hadd
    cases hadd
    obtain ⟨q, hq, hqne, hwf2, hg, hcases⟩ := add_entry_inner_spec hwf hi
    have hq' : toNamesNR (stripRoot (e.local_path s.pattern).components) = some q := hq
    have hbr : ∀ (N : NodeMap), walkE N 0 (e.local_path s.pattern).components
        = some (wfindN N 0 q) := by
      intro N
      rw [walkE_stripRoot]
      exact walkE_toNames _ q hq' N 0
    unfold TreeStorage.find at habsent
    rw [hbr] at habsent
    replace habsent : wfindN s.nodes 0 q = none := by
      injection habsent
    rcases hcases with ⟨heq, j, hj⟩ | ⟨i, hwi, hleaf, _, _, _⟩
    · rw [habsent] at hj
      cases hj
    · refine ⟨i, ?_, ?_, ?_⟩
      · show walkE n2 0 (e.local_path s.pattern).components = some (some i)
        rw [hbr n2, hwi]
      · simp only [TreeStorage.is_file]
        rw [show lookup i (⟨s.pattern, n2⟩ : Store).nodes = some (Node.leaf e) from hleaf]
      · simp only [TreeStorage.host_path]
        rw [show lookup i (⟨s.pattern, n2⟩ : Store).nodes = some (Node.leaf e) from hleaf]

/-- C1 counterexample to the unrestricted claim: adding `ea2` (display name
`"a"`, host path `/h2/a`) to a store that already holds name `"a"` completes
without changing the store, and `find("/a")` still reports the *old* entry's
host path, not `ea2`'s. -/
theorem C1_counterexample :
    TreeStorage.add_entry sC4a ea2 = some sC4a ∧
    TreeStorage.find sC4a (ea2.local_path sC4a.pattern) = some (some 1) ∧
    TreeStorage.is_file sC4a.nodes 1 = true ∧
    TreeStorage.host_path sC4a.nodes 1 = some ea.host_path ∧
    ea.host_path ≠ ea2.host_path := by
  decide

/-- C1 witness: the amended round trip holds concretely for adding `ea` to the
fresh store `new "/"`. -/
theorem C1_witness :
    ∃ i, TreeStorage.find sC4a (ea.local_path (TreeStorage.new ⟨true, [""]⟩).pattern)
        = some (some i) ∧
      TreeStorage.is_file sC4a.nodes i = true ∧
      TreeStorage.host_path sC4a.nodes i = some ea.host_path :=
  C1_round_trip (TreeStorage.new ⟨true, [""]⟩) ea sC4a
    (NoRemoveReach.new ⟨true, [""]⟩) (by decide) (by decide)

theorem leafResolve_step {nodes n2 : NodeMap} {pat : Fpath} {e : OrganizeFSEntry}
    (hwf : TreeWF nodes)
    (hres : ∀ k e', lookup k nodes = some (Node.leaf e') →
      ∃ q', pathNames (e'.local_path pat) = some q' ∧ wfindN nodes 0 q' = some k)
    (h : TreeStorage.add_entry_inner nodes pat e = some n2) :
    ∀ k e', lookup k n2 = some (Node.leaf e') →
      ∃ q', pathNames (e'.local_path pat) = some q' ∧ wfindN n2 0 q' = some k := by
  obtain ⟨q, hq, hqne, hwf2, hg, hcases⟩ := add_entry_inner_spec hwf h
  intro k e' hk
  rcases hcases with ⟨heq, _⟩ | ⟨i, hwi, hleaf, hcount, hback, hwback⟩
  · subst heq
    exact hres k e' hk
  · rcases hback k e' hk with hold | ⟨h1, h2⟩
    · obtain ⟨q', hq', hw⟩ := hres k e' hold
      exact ⟨q', hq', wfindN_mono hg q' 0 k hw⟩
    · refine ⟨q, ?_, ?_⟩
      · rw [h2]
        exact hq
      · rw [h1]
        exact hwi

theorem leafResolve_foldl : ∀ (es : List OrganizeFSEntry) (pat : Fpath)
    (nodes nodes' : NodeMap), TreeWF nodes →
    (∀ k e', lookup k nodes = some (Node.leaf e') →
      ∃ q', pathNames (e'.local_path pat) = some q' ∧ wfindN nodes 0 q' = some k) →
    es.foldlM (fun acc e => TreeStorage.add_entry_inner acc pat e) nodes = some nodes' →
    ∀ k e', lookup k nodes' = some (Node.leaf e') →
      ∃ q', pathNames (e'.local_path pat) = some q' ∧ wfindN nodes' 0 q' = some k := by
  intro es
  induction es with
  | nil =>
    intro pat nodes nodes' hwf hres h
    cases h
    exact hres
  | cons e rest ih =>
    intro pat nodes nodes' hwf hres h
    rw [List.foldlM_cons] at h
    cases ha : TreeStorage.add_entry_inner nodes pat e with
    | none => rw [ha] at h; cases h
    | some n₁ =>
      rw [ha] at h
      obtain ⟨q, _, _, hwf1, _, _⟩ := add_entry_inner_spec hwf ha
      exact ih pat n₁ nodes' hwf1 (leafResolve_step hwf hres ha) h

theorem leafResolve_root0 (pat : Fpath) :
    ∀ k e', lookup k [(0, Node.branch [])] = some (Node.leaf e') →
      ∃ q', pathNames (e'.local_path pat) = some q' ∧
        wfindN [(0, Node.branch [])] 0 q' = some k := by
  intro k e' hk
  unfold lookup at hk
  by_cases h : (0 : Nat) = k
  · rw [if_pos h] at hk
    cases hk
  · rw [if_neg h] at hk
    cases hk

/-- C6 (amended): in every store reachable through `new`, `add_entry` and
`set_pattern` alone, every leaf in the arena resolves from the root at the name
sequence of its entry's pattern-expanded local path (the expanded pattern
segments followed by the display name).  `remove` must be excluded: removing a
branch path detaches a whole subtree while its leaves stay in the arena. -/
theorem C6_leaf_reachability (s : Store) (h : NoRemoveReach s) : LeafResolve s := by
  induction h with
  | new p =>
    intro k e' hk
    exact leafResolve_root0 (TreeStorage.new p).pattern k e' hk
  | add hs hadd ih =>
    rename_i s₀ s₁ e
    have hwf := noRemoveReach_treeWF hs
    unfold TreeStorage.add_entry at hadd
    cases hi : TreeStorage.add_entry_inner s₀.nodes s₀.pattern e with
    | none => rw [hi] at hadd; cases hadd
    | some n2 =>
      rw [hi] at hadd
      replace hadd : some (⟨s₀.pattern, n2⟩ : Store) = some s₁ := hadd
      cases hadd
      exact leafResolve_step hwf ih hi
  | set hs hset ih =>
    rename_i s₀ s₁ q
    unfold TreeStorage.set_pattern at hset
    cases hf : (TreeStorage.leafEntries s₀.nodes).foldlM
        (fun nodes e => TreeStorage.add_entry_inner nodes (Fpath.ofString q).normalize e)
        [(0, Node.branch [])] with
    | none => rw [hf] at hset; cases hset
    | some nn =>
      rw [hf] at hset
      replace hset : some (⟨(Fpath.ofString q).normalize, nn⟩ : Store) = some s₁ := hset
      cases hset
      exact leafResolve_foldl (TreeStorage.leafEntries s₀.nodes)
        (Fpath.ofString q).normalize [(0, Node.branch [])] nn treeWF_root0
        (leafResolve_root0 _) hf

/-- C6 counterexample to the claim's inclusion of `remove`: after `new "/{meta}"`,
`add_entry eD` (virtual path `/x/f`), and `remove "/x"` (a branch path), `eD`'s
leaf is still in the arena at identifier 2 but `find` of its virtual path
returns `None`: the leaf is orphaned. -/
theorem C6_counterexample :
    TreeStorage.add_entry (TreeStorage.new ⟨true, ["{meta}"]⟩) eD = some sC9 ∧
    TreeStorage.remove sC9 ⟨true, ["x"]⟩ = some (true, sC6) ∧
    lookup 2 sC6.nodes = some (Node.leaf eD) ∧
    TreeStorage.find sC6 (eD.local_path sC6.pattern) = some none := by
  decide

/-- C6 witness: the amended invariant holds concretely for the removal-free
store `sC9` (`new "/{meta}"` then `add_entry eD`). -/
theorem C6_witness : LeafResolve sC9 :=
  C6_leaf_reachability sC9
    (NoRemoveReach.add (NoRemoveReach.new ⟨true, ["{meta}"]⟩)
      (show TreeStorage.add_entry (TreeStorage.new ⟨true, ["{meta}"]⟩) eD = some sC9
        by decide))

theorem leafEntries_length : ∀ (nodes : NodeMap),
    (TreeStorage.leafEntries nodes).length = leafCount nodes := by
  intro nodes
  induction nodes with
  | nil => rfl
  | cons kv rest ih =>
    obtain ⟨k, v⟩ := kv
    cases v with
    | branch ch =>
      simp only [TreeStorage.leafEntries, leafCount, List.filterMap_cons,
        List.filter_cons] at ih ⊢
      exact ih
    | leaf e =>
      simp only [TreeStorage.leafEntries, leafCount, List.filterMap_cons,
        List.filter_cons] at ih ⊢
      simp [ih]

theorem routes_root0 : Routes [(0, Node.branch [])] [] := by
  intro ns k hne hw
  exfalso
  cases ns with
  | nil => exact hne rfl
  | cons n rest =>
    unfold wfindN at hw
    cases hfc : TreeStorage.find_child [(0, Node.branch [])] 0 n with
    | some c =>
      unfold TreeStorage.find_child at hfc
      replace hfc : childLookup n [] = some c := hfc
      cases hfc
    | none => rw [hfc] at hw; cases hw

theorem setPattern_count_foldl : ∀ (es : List OrganizeFSEntry) (qs : List (List String))
    (pat : Fpath) (nodes nodes' : NodeMap) (ps : List (List String)),
    TreeWF nodes → Routes nodes ps →
    es.map (fun e => pathNames (e.local_path pat)) = qs.map some →
    List.Pairwise (fun q₁ q₂ => segPre q₂ q₁ = false) qs →
    (∀ p ∈ ps, ∀ q ∈ qs, segPre q p = false) →
    es.foldlM (fun acc e => TreeStorage.add_entry_inner acc pat e) nodes = some nodes' →
    leafCount nodes' = leafCount nodes + es.length := by
  intro es
  induction es with
  | nil =>
    intro qs pat nodes nodes' ps hwf hroutes hmap hpw hdisj h
    cases h
    rfl
  | cons e rest ih =>
    intro qs pat nodes nodes' ps hwf hroutes hmap hpw hdisj h
    cases qs with
    | nil => cases hmap
    | cons q qrest =>
      simp only [List.map_cons, List.cons.injEq] at hmap
      obtain ⟨hq0, hmaprest⟩ := hmap
      rw [List.foldlM_cons] at h
      cases ha : TreeStorage.add_entry_inner nodes pat e with
      | none => rw [ha] at h; cases h
      | some n₁ =>
        rw [ha] at h
        obtain ⟨q', hq', hqne, hwf1, hg1, hcases⟩ := add_entry_inner_spec hwf ha
        have hqq : q' = q := by
          rw [hq0] at hq'
          injection hq' with h2
          exact h2.symm
        rw [← hqq] at hpw hdisj
        rcases hcases with ⟨heq, j, hj⟩ | ⟨i, hwi, hleaf, hcount, hback, hwback⟩
        · exfalso
          obtain ⟨p, hp, hpre⟩ := hroutes q' j hqne hj
          have hfalse := hdisj p hp q' (List.mem_cons_self _ _)
          rw [hfalse] at hpre
          cases hpre
        · have hroutes1 : Routes n₁ (ps ++ [q']) := by
            intro ns k hne hw
            rcases hwback ns k hw with hold | hpre
            · obtain ⟨p, hp, hpre⟩ := hroutes ns k hne hold
              exact ⟨p, List.mem_append_left _ hp, hpre⟩
            · exact ⟨q', List.mem_append_right _ (List.mem_singleton.mpr rfl), hpre⟩
          have hdisj1 : ∀ p ∈ ps ++ [q'], ∀ x ∈ qrest, segPre x p = false := by
            intro p hp x hx
            rcases List.mem_append.mp hp with hp | hp
            · exact hdisj p hp x (List.mem_cons_of_mem _ hx)
            · rw [List.mem_singleton.mp hp]
              exact (List.pairwise_cons.mp hpw).1 x hx
          have hrec := ih qrest pat n₁ nodes' (ps ++ [q']) hwf1 hroutes1 hmaprest
            (List.pairwise_cons.mp hpw).2 hdisj1 h
          rw [hrec, hcount]
          simp only [List.length_cons]
          omega

/-- C2 (amended): `set_pattern` preserves `len()` exactly when no entry's
rebuilt virtual path is a leading run of an earlier entry's (in arena iteration
order); with such a collision the rebuild silently merges entries (or panics),
so the unconditional claim fails. -/
theorem C2_set_pattern_len (s : Store) (pat : String) (s' : Store)
    (qs : List (List String))
    (hqs : (TreeStorage.leafEntries s.nodes).map
        (fun e => pathNames (e.local_path (Fpath.ofString pat).normalize)) = qs.map some)
    (hpw : List.Pairwise (fun q₁ q₂ => segPre q₂ q₁ = false) qs)
    (hset : TreeStorage.set_pattern s pat = some s') :
    TreeStorage.len s' = TreeStorage.len s := by
  unfold TreeStorage.set_pattern at hset
  cases hf : (TreeStorage.leafEntries s.nodes).foldlM
      (fun nodes e => TreeStorage.add_entry_inner nodes (Fpath.ofString pat).normalize e)
      [(0, Node.branch [])] with
  | none => rw [hf] at hset; cases hset
  | some nn =>
    rw [hf] at hset
    replace hset : some (⟨(Fpath.ofString pat).normalize, nn⟩ : Store) = some s' := hset
    cases hset
    have hcount := setPattern_count_foldl (TreeStorage.leafEntries s.nodes) qs
      (Fpath.ofString pat).normalize [(0, Node.branch [])] nn [] treeWF_root0
      routes_root0 hqs hpw (by intro p hp; cases hp) hf
    show leafCount nn = TreeStorage.len s
    rw [hcount, leafEntries_length]
    have h0 : leafCount [(0, Node.branch [])] = 0 := rfl
    rw [h0, Nat.zero_add]
    rfl

/-- C2 counterexample to the unconditional claim: two entries distinct under
`/{size}` (`/1KB/x`, `/2KB/x`) collide under `/{meta}` (both `/a/x`);
`set_pattern "/{meta}"` completes but drops `len()` from 2 to 1. -/
theorem C2_counterexample :
    TreeStorage.add_entry (TreeStorage.new ⟨true, ["{size}"]⟩) eX1 = some sC2a ∧
    TreeStorage.add_entry sC2a eX2 = some sC2 ∧
    TreeStorage.len sC2 = 2 ∧
    TreeStorage.set_pattern sC2 "/{meta}" = some sC2m ∧
    TreeStorage.len sC2m = 1 := by
  decide

/-- C2 witness: the amended preservation holds concretely for `sC4b`
(entries `a`, `b`) re-patterned to `/{meta}`, whose rebuilt paths `/t/a`,
`/t/b` are pairwise prefix-free. -/
theorem C2_witness : TreeStorage.len sC2w = TreeStorage.len sC4b :=
  C2_set_pattern_len sC4b "/{meta}" sC2w [["t", "a"], ["t", "b"]]
    (by decide) (by decide) (by decide)
